import Mathlib

/-!
# Verification of the Voronoi toolkit's derived-structure core

Shallow embedding of the computational core of the repository
(src/lib/math-utils.ts, src/lib/geometry-algorithms.ts, src/lib/types.ts and
src/lib/constants.ts) and proofs about it.

Modelling conventions:
* JavaScript numbers are modelled as exact rationals where the code only does
  field arithmetic and comparisons, and as real numbers where the code takes
  square roots (Math.hypot / Math.sqrt).
* Number.POSITIVE_INFINITY (and Number.MAX_VALUE used as an "infinite" initial
  best distance) is modelled as the top element of a WithTop order.
* The string edge keys produced by edgeKey ("a-b" with a < b) are modelled
  directly as canonical pairs (a, b) with a < b; decodeEdgeKey is then the
  identity, as the string round-trip is faithful on ASCII decimal indices.
* JavaScript Map and Set iteration order is insertion order, modelled with
  association lists that append fresh keys at the end.
* Out-of-range array reads (undefined in JavaScript) are modelled with
  Option-valued reads (List.get?) where the code checks for undefined, and
  with a default element where the code never reads out of range.
-/

namespace VoronoiSpec

/-- A 2-D point (types.ts, Point): an integer identity and plane coordinates.
Coordinates are modelled as exact rationals. -/
structure Point where
  id : Int
  x : ℚ
  y : ℚ
deriving DecidableEq

instance : Inhabited Point := ⟨⟨0, 0, 0⟩⟩

/-- EPSILON from constants.ts: 1e-6. -/
def EPSILON : ℚ := 1 / 1000000

/-- clamp from math-utils.ts: Math.max(min, Math.min(max, value)). -/
def clamp (value lo hi : ℚ) : ℚ := max lo (min hi value)

/-- distanceSquared from math-utils.ts. -/
def distanceSquared (a b : Point) : ℚ :=
  (a.x - b.x) * (a.x - b.x) + (a.y - b.y) * (a.y - b.y)

/-- distance from math-utils.ts: Math.hypot(a.x - b.x, a.y - b.y). -/
noncomputable def distance (a b : Point) : ℝ :=
  Real.sqrt ((((a.x : ℝ) - (b.x : ℝ)) ^ 2 + ((a.y : ℝ) - (b.y : ℝ)) ^ 2))

theorem distanceSquared_nonneg (a b : Point) : 0 ≤ distanceSquared a b := by
  unfold distanceSquared
  nlinarith [mul_self_nonneg (a.x - b.x), mul_self_nonneg (a.y - b.y)]

theorem distance_eq_sqrt_distanceSquared (a b : Point) :
    distance a b = Real.sqrt ((distanceSquared a b : ℚ) : ℝ) := by
  unfold distance distanceSquared
  push_cast
  ring_nf

/-- triangleArea from math-utils.ts:
abs(ax*(by - cy) + bx*(cy - ay) + cx*(ay - by)) * 0.5. -/
def triangleArea (ax ay bx by' cx cy : ℚ) : ℚ :=
  |ax * (by' - cy) + bx * (cy - ay) + cx * (ay - by')| * (1 / 2)

/-- circumradius from math-utils.ts: (a*b*c)/(4*area) with the three side
lengths computed by Math.hypot; a degenerate (zero-area) triangle yields
Number.POSITIVE_INFINITY, modelled as the top element. -/
noncomputable def circumradius (ax ay bx by' cx cy : ℚ) : WithTop ℝ :=
  let a := Real.sqrt (((bx : ℝ) - (cx : ℝ)) ^ 2 + ((by' : ℝ) - (cy : ℝ)) ^ 2)
  let b := Real.sqrt (((ax : ℝ) - (cx : ℝ)) ^ 2 + ((ay : ℝ) - (cy : ℝ)) ^ 2)
  let c := Real.sqrt (((ax : ℝ) - (bx : ℝ)) ^ 2 + ((ay : ℝ) - (by' : ℝ)) ^ 2)
  if triangleArea ax ay bx by' cx cy = 0 then ⊤
  else ((a * b * c) / (4 * ((triangleArea ax ay bx by' cx cy : ℚ) : ℝ)) : ℝ)

/-- edgeKey from geometry-algorithms.ts, modelled as the canonical
(min, max) pair rather than the string "min-max". -/
def edgeKey (a b : Nat) : Nat × Nat := if a < b then (a, b) else (b, a)

theorem edgeKey_comm (a b : Nat) : edgeKey a b = edgeKey b a := by
  unfold edgeKey
  rcases Nat.lt_trichotomy a b with h | h | h
  · rw [if_pos h, if_neg (by omega)]
  · subst h; rfl
  · rw [if_neg (by omega), if_pos h]

/-- polygonWithoutDuplicate from geometry-algorithms.ts: drops the last vertex
when it coincides with the first. -/
def polygonWithoutDuplicate (polygon : List (ℚ × ℚ)) : List (ℚ × ℚ) :=
  if polygon.length ≠ 0 ∧ (polygon.headD (0, 0)).1 = (polygon.getLastD (0, 0)).1 ∧
      (polygon.headD (0, 0)).2 = (polygon.getLastD (0, 0)).2 then
    polygon.dropLast
  else polygon

/-! ## Slider mapping (constants.ts SLIDER_RANGES, math-utils.ts) -/

/-- One row of the SLIDER_RANGES configuration from constants.ts. -/
structure SliderRange where
  sliderMax : ℚ
  radiusMin : ℚ
  radiusMax : ℚ

namespace SLIDER_RANGES

/-- SLIDER_RANGES.FIRST_RANGE from constants.ts. -/
def FIRST_RANGE : SliderRange := ⟨1 / 2, 12, 500⟩

/-- SLIDER_RANGES.SECOND_RANGE from constants.ts. -/
def SECOND_RANGE : SliderRange := ⟨3 / 4, 500, 1000⟩

/-- SLIDER_RANGES.THIRD_RANGE from constants.ts. -/
def THIRD_RANGE : SliderRange := ⟨1, 1000, 5000⟩

end SLIDER_RANGES

/-- The first branch of sliderToRadius (math-utils.ts). -/
def firstSegmentRadius (t : ℚ) : ℚ :=
  SLIDER_RANGES.FIRST_RANGE.radiusMin +
    (t / SLIDER_RANGES.FIRST_RANGE.sliderMax) *
      (SLIDER_RANGES.FIRST_RANGE.radiusMax - SLIDER_RANGES.FIRST_RANGE.radiusMin)

/-- The second branch of sliderToRadius (math-utils.ts); the source divides the
local offset by the literal 0.25. -/
def secondSegmentRadius (t : ℚ) : ℚ :=
  SLIDER_RANGES.SECOND_RANGE.radiusMin +
    ((t - SLIDER_RANGES.FIRST_RANGE.sliderMax) / (1 / 4)) *
      (SLIDER_RANGES.SECOND_RANGE.radiusMax - SLIDER_RANGES.SECOND_RANGE.radiusMin)

/-- The third branch of sliderToRadius (math-utils.ts). -/
def thirdSegmentRadius (t : ℚ) : ℚ :=
  SLIDER_RANGES.THIRD_RANGE.radiusMin +
    ((t - SLIDER_RANGES.SECOND_RANGE.sliderMax) / (1 / 4)) *
      (SLIDER_RANGES.THIRD_RANGE.radiusMax - SLIDER_RANGES.THIRD_RANGE.radiusMin)

/-- sliderToRadius from math-utils.ts. -/
def sliderToRadius (t : ℚ) : ℚ :=
  if t ≤ SLIDER_RANGES.FIRST_RANGE.sliderMax then firstSegmentRadius t
  else if t ≤ SLIDER_RANGES.SECOND_RANGE.sliderMax then secondSegmentRadius t
  else thirdSegmentRadius t

/-- radiusToSlider from math-utils.ts. -/
def radiusToSlider (r : ℚ) : ℚ :=
  if r ≤ SLIDER_RANGES.FIRST_RANGE.radiusMax then
    ((r - SLIDER_RANGES.FIRST_RANGE.radiusMin) /
        (SLIDER_RANGES.FIRST_RANGE.radiusMax - SLIDER_RANGES.FIRST_RANGE.radiusMin)) *
      SLIDER_RANGES.FIRST_RANGE.sliderMax
  else if r ≤ SLIDER_RANGES.SECOND_RANGE.radiusMax then
    SLIDER_RANGES.FIRST_RANGE.sliderMax +
      ((r - SLIDER_RANGES.SECOND_RANGE.radiusMin) /
          (SLIDER_RANGES.SECOND_RANGE.radiusMax - SLIDER_RANGES.SECOND_RANGE.radiusMin)) *
        (1 / 4)
  else
    SLIDER_RANGES.SECOND_RANGE.sliderMax +
      ((r - SLIDER_RANGES.THIRD_RANGE.radiusMin) /
          (SLIDER_RANGES.THIRD_RANGE.radiusMax - SLIDER_RANGES.THIRD_RANGE.radiusMin)) *
        (1 / 4)

/-! ## Claim theorems: C10 and C7 -/

/-- C10: for every polygon consisting of exactly one vertex,
polygonWithoutDuplicate returns the empty polygon (the single vertex is both
the first and last vertex, so it is removed); consequently a caller can
receive an empty cell polygon from a non-empty input polygon. -/
theorem polygonWithoutDuplicate_singleton :
    (∀ v : ℚ × ℚ, polygonWithoutDuplicate [v] = []) ∧
    (∃ polygon : List (ℚ × ℚ), polygon ≠ [] ∧ polygonWithoutDuplicate polygon = []) := by
  constructor
  · intro v
    simp [polygonWithoutDuplicate]
  · exact ⟨[(0, 0)], by simp, by simp [polygonWithoutDuplicate]⟩

/-- C7: for every t in [0,1], radiusToSlider (sliderToRadius t) equals t — in
this exact-rational model the round-trip is exact, which implies equality
within any floating-point tolerance — and sliderToRadius is continuous across
its three segments: at each segment boundary both adjacent segment formulas
yield the same radius. -/
theorem radiusToSlider_sliderToRadius_roundTrip :
    (∀ t : ℚ, 0 ≤ t → t ≤ 1 → radiusToSlider (sliderToRadius t) = t) ∧
    firstSegmentRadius SLIDER_RANGES.FIRST_RANGE.sliderMax =
      secondSegmentRadius SLIDER_RANGES.FIRST_RANGE.sliderMax ∧
    secondSegmentRadius SLIDER_RANGES.SECOND_RANGE.sliderMax =
      thirdSegmentRadius SLIDER_RANGES.SECOND_RANGE.sliderMax := by
  refine ⟨?_, by norm_num [firstSegmentRadius, secondSegmentRadius, SLIDER_RANGES.FIRST_RANGE,
    SLIDER_RANGES.SECOND_RANGE, SLIDER_RANGES.THIRD_RANGE],
    by norm_num [secondSegmentRadius, thirdSegmentRadius, SLIDER_RANGES.FIRST_RANGE,
      SLIDER_RANGES.SECOND_RANGE, SLIDER_RANGES.THIRD_RANGE]⟩
  intro t _ht0 _ht1
  unfold sliderToRadius radiusToSlider firstSegmentRadius secondSegmentRadius thirdSegmentRadius
  simp only [SLIDER_RANGES.FIRST_RANGE, SLIDER_RANGES.SECOND_RANGE, SLIDER_RANGES.THIRD_RANGE]
  by_cases h1 : t ≤ 1 / 2
  · rw [if_pos h1]
    rw [if_pos (by nlinarith)]
    field_simp
  · rw [if_neg h1]
    by_cases h2 : t ≤ 3 / 4
    · rw [if_pos h2]
      rw [if_neg (by nlinarith), if_pos (by nlinarith)]
      field_simp
      ring
    · rw [if_neg h2]
      rw [if_neg (by nlinarith), if_neg (by nlinarith)]
      field_simp

/-- C7 witness: the round-trip theorem applied at the concrete slider value
3/5 (inside the second segment). -/
theorem radiusToSlider_sliderToRadius_roundTrip_witness :
    (0 : ℚ) ≤ 3 / 5 ∧ (3 / 5 : ℚ) ≤ 1 ∧
      radiusToSlider (sliderToRadius (3 / 5)) = 3 / 5 :=
  ⟨by norm_num, by norm_num,
    radiusToSlider_sliderToRadius_roundTrip.1 (3 / 5) (by norm_num) (by norm_num)⟩

/-! ## Gabriel graph filter (geometry-algorithms.ts, computeGabrielEdges) -/

/-- The inner loop test of computeGabrielEdges: whether points[k] lies inside
the epsilon-shrunk circle whose diameter is the segment from points[aIndex]
to points[bIndex] (dx*dx + dy*dy < radiusSquared - EPSILON in the source). -/
def gabrielInside (points : List Point) (aIndex bIndex k : Nat) : Bool :=
  let a := points.getD aIndex default
  let b := points.getD bIndex default
  let midX := (a.x + b.x) / 2
  let midY := (a.y + b.y) / 2
  let radiusSquared := distanceSquared a b / 4
  let pk := points.getD k default
  let dx := pk.x - midX
  let dy := pk.y - midY
  decide (dx * dx + dy * dy < radiusSquared - EPSILON)

/-- computeGabrielEdges from geometry-algorithms.ts: keep a candidate edge iff
no third point passes the gabrielInside test (the loop with early break is a
short-circuit conjunction over all indices). -/
def computeGabrielEdges (points : List Point)
    (candidateEdges : List (Nat × Nat)) : List (Nat × Nat) :=
  candidateEdges.filter fun e =>
    (List.range points.length).all fun k =>
      if k = e.1 ∨ k = e.2 then true else ! gabrielInside points e.1 e.2 k

/-- Modelled from the spec's words in C4 (for comparison with the code's
epsilon-biased gabrielInside): points[k] lies strictly inside the exact
circle whose diameter is the segment between points[aIndex] and
points[bIndex] (center the midpoint, squared radius distanceSquared/4). -/
def specStrictlyInside (points : List Point) (aIndex bIndex k : Nat) : Prop :=
  let a := points.getD aIndex default
  let b := points.getD bIndex default
  let midX := (a.x + b.x) / 2
  let midY := (a.y + b.y) / 2
  let radiusSquared := distanceSquared a b / 4
  let pk := points.getD k default
  (pk.x - midX) * (pk.x - midX) + (pk.y - midY) * (pk.y - midY) < radiusSquared

instance (points : List Point) (aIndex bIndex k : Nat) :
    Decidable (specStrictlyInside points aIndex bIndex k) := by
  unfold specStrictlyInside
  infer_instance

/-- Modelled from the spec's words in C4: points[k] lies exactly on the
boundary circle whose diameter is the segment between points[aIndex] and
points[bIndex]. -/
def specOnBoundaryCircle (points : List Point) (aIndex bIndex k : Nat) : Prop :=
  let a := points.getD aIndex default
  let b := points.getD bIndex default
  let midX := (a.x + b.x) / 2
  let midY := (a.y + b.y) / 2
  let radiusSquared := distanceSquared a b / 4
  let pk := points.getD k default
  (pk.x - midX) * (pk.x - midX) + (pk.y - midY) * (pk.y - midY) = radiusSquared

theorem gabrielInside_iff (points : List Point) (aIndex bIndex k : Nat) :
    gabrielInside points aIndex bIndex k = true ↔
      (let a := points.getD aIndex default
       let b := points.getD bIndex default
       let pk := points.getD k default
       (pk.x - (a.x + b.x) / 2) * (pk.x - (a.x + b.x) / 2) +
           (pk.y - (a.y + b.y) / 2) * (pk.y - (a.y + b.y) / 2) <
         distanceSquared a b / 4 - EPSILON) := by
  simp [gabrielInside]

/-- C4, part of the characterization: membership in the Gabriel output. -/
theorem mem_computeGabrielEdges_iff (points : List Point)
    (candidateEdges : List (Nat × Nat)) (e : Nat × Nat) :
    e ∈ computeGabrielEdges points candidateEdges ↔
      e ∈ candidateEdges ∧ ∀ k, k < points.length → k ≠ e.1 → k ≠ e.2 →
        gabrielInside points e.1 e.2 k = false := by
  unfold computeGabrielEdges
  rw [List.mem_filter]
  constructor
  · rintro ⟨hc, hall⟩
    refine ⟨hc, ?_⟩
    rw [List.all_eq_true] at hall
    intro k hk hk1 hk2
    have := hall k (List.mem_range.2 hk)
    rw [if_neg (by push_neg; exact ⟨hk1, hk2⟩)] at this
    simpa using this
  · rintro ⟨hc, hall⟩
    refine ⟨hc, ?_⟩
    rw [List.all_eq_true]
    intro k hk
    by_cases hke : k = e.1 ∨ k = e.2
    · rw [if_pos hke]
    · push_neg at hke
      rw [if_neg (by push_neg; exact hke)]
      simpa using hall k (List.mem_range.1 hk) hke.1 hke.2

/-- C4: computeGabrielEdges retains a candidate edge (a, b) if and only if no
third point passes the (epsilon-biased) inside test for the circle whose
diameter is segment ab; the test is biased toward keeping the edge: any third
point that is not strictly inside the exact circle — in particular any point
lying exactly on the boundary circle — never triggers removal, and a
candidate edge with no third point strictly inside the exact circle is always
retained. -/
theorem computeGabrielEdges_spec (points : List Point)
    (candidateEdges : List (Nat × Nat)) (e : Nat × Nat) :
    (e ∈ computeGabrielEdges points candidateEdges ↔
      e ∈ candidateEdges ∧ ∀ k, k < points.length → k ≠ e.1 → k ≠ e.2 →
        gabrielInside points e.1 e.2 k = false) ∧
    (∀ a b k : Nat, ¬ specStrictlyInside points a b k →
      gabrielInside points a b k = false) ∧
    (∀ a b k : Nat, specOnBoundaryCircle points a b k →
      gabrielInside points a b k = false) ∧
    (e ∈ candidateEdges →
      (∀ k, k < points.length → k ≠ e.1 → k ≠ e.2 →
        ¬ specStrictlyInside points e.1 e.2 k) →
      e ∈ computeGabrielEdges points candidateEdges) := by
  have hnotinside : ∀ a b k : Nat, ¬ specStrictlyInside points a b k →
      gabrielInside points a b k = false := by
    intro a b k hns
    simp only [specStrictlyInside] at hns
    push_neg at hns
    simp only [gabrielInside, decide_eq_false_iff_not, not_lt]
    have heps : (0 : ℚ) < EPSILON := by norm_num [EPSILON]
    linarith
  refine ⟨mem_computeGabrielEdges_iff points candidateEdges e, hnotinside, ?_, ?_⟩
  · intro a b k hb
    apply hnotinside
    simp only [specOnBoundaryCircle] at hb
    simp only [specStrictlyInside, hb, lt_self_iff_false, not_false_eq_true]
  · intro hc hall
    rw [mem_computeGabrielEdges_iff]
    exact ⟨hc, fun k hk hk1 hk2 => hnotinside e.1 e.2 k (hall k hk hk1 hk2)⟩

/-- C4 witness: the characterization applied to the concrete two-point set
with the single candidate edge (0, 1), retained because there is no third
point. -/
theorem computeGabrielEdges_spec_witness :
    (0, 1) ∈ computeGabrielEdges [⟨0, 0, 0⟩, ⟨1, 1, 0⟩] [(0, 1)] :=
  (computeGabrielEdges_spec [⟨0, 0, 0⟩, ⟨1, 1, 0⟩] [(0, 1)] (0, 1)).2.2.2
    (by decide) (by decide)

/-! ## Relative neighborhood graph filter
(geometry-algorithms.ts, computeRelativeNeighborhoodEdges) -/

/-- The retention condition of computeRelativeNeighborhoodEdges: no third
point k has Math.max(dist(a,k), dist(b,k)) < dist(a,b) - EPSILON. Distances
here are true Euclidean distances (the source calls the square-root based
distance, not distanceSquared). -/
def rngKeep (points : List Point) (aIndex bIndex : Nat) : Prop :=
  ∀ k, k < points.length → k ≠ aIndex → k ≠ bIndex →
    ¬ (max (distance (points.getD aIndex default) (points.getD k default))
           (distance (points.getD bIndex default) (points.getD k default)) <
        distance (points.getD aIndex default) (points.getD bIndex default) -
          ((EPSILON : ℚ) : ℝ))

/-- computeRelativeNeighborhoodEdges from geometry-algorithms.ts: keep a
candidate edge iff no third point is closer than dist(a,b) - EPSILON to both
endpoints (the loop with early break is a short-circuit conjunction; the
real-valued comparison is classically decidable). -/
noncomputable def computeRelativeNeighborhoodEdges (points : List Point)
    (candidateEdges : List (Nat × Nat)) : List (Nat × Nat) :=
  candidateEdges.filter fun e =>
    @decide (rngKeep points e.1 e.2) (Classical.propDecidable _)

theorem mem_computeRelativeNeighborhoodEdges_iff (points : List Point)
    (candidateEdges : List (Nat × Nat)) (e : Nat × Nat) :
    e ∈ computeRelativeNeighborhoodEdges points candidateEdges ↔
      e ∈ candidateEdges ∧ rngKeep points e.1 e.2 := by
  unfold computeRelativeNeighborhoodEdges
  rw [List.mem_filter]
  constructor
  · rintro ⟨hc, hd⟩
    exact ⟨hc, @of_decide_eq_true _ (Classical.propDecidable _) hd⟩
  · rintro ⟨hc, hk⟩
    exact ⟨hc, @decide_eq_true _ (Classical.propDecidable _) hk⟩

/-- The parallelogram/median identity used to relate the Gabriel midpoint
test to endpoint distances. -/
theorem median_identity (a b k : Point) :
    distanceSquared a k + distanceSquared b k =
      2 * ((k.x - (a.x + b.x) / 2) * (k.x - (a.x + b.x) / 2) +
            (k.y - (a.y + b.y) / 2) * (k.y - (a.y + b.y) / 2)) +
        distanceSquared a b / 2 := by
  unfold distanceSquared
  ring

/-- C2 (amended): the Gabriel filter output is always a subset of the input
candidate list; and whenever every candidate edge has squared length at most
1, the RNG filter output is a subset of the Gabriel filter output. (The
unconditional RNG ⊆ Gabriel inclusion fails because the Gabriel test applies
EPSILON to a squared distance while the RNG test applies it to an unsquared
distance; see the counterexample theorem.) -/
theorem gabriel_subset_candidates_rng_subset_gabriel
    (points : List Point) (candidateEdges : List (Nat × Nat)) :
    computeGabrielEdges points candidateEdges ⊆ candidateEdges ∧
    ((∀ e ∈ candidateEdges,
        distanceSquared (points.getD e.1 default) (points.getD e.2 default) ≤ 1) →
      ∀ e ∈ computeRelativeNeighborhoodEdges points candidateEdges,
        e ∈ computeGabrielEdges points candidateEdges) := by
  constructor
  · intro x hx
    exact (List.mem_filter.1 hx).1
  · intro hsmall e he
    rw [mem_computeRelativeNeighborhoodEdges_iff] at he
    obtain ⟨hc, hkeep⟩ := he
    rw [mem_computeGabrielEdges_iff]
    refine ⟨hc, ?_⟩
    intro k hk hk1 hk2
    by_contra hins
    rw [Bool.not_eq_false] at hins
    simp only [gabrielInside, decide_eq_true_eq] at hins
    set A := points.getD e.1 default with hA
    set B := points.getD e.2 default with hB
    set K := points.getD k default with hK
    have habq : distanceSquared A B ≤ 1 := hsmall e hc
    have hsum : distanceSquared A K + distanceSquared B K <
        distanceSquared A B - 2 * EPSILON := by
      have hmid := median_identity A B K
      linarith
    -- move to the reals
    have hak0 : (0 : ℝ) ≤ ((distanceSquared A K : ℚ) : ℝ) := by
      exact_mod_cast distanceSquared_nonneg A K
    have hbk0 : (0 : ℝ) ≤ ((distanceSquared B K : ℚ) : ℝ) := by
      exact_mod_cast distanceSquared_nonneg B K
    have hab0 : (0 : ℝ) ≤ ((distanceSquared A B : ℚ) : ℝ) := by
      exact_mod_cast distanceSquared_nonneg A B
    have hsumR : ((distanceSquared A K : ℚ) : ℝ) + ((distanceSquared B K : ℚ) : ℝ) <
        ((distanceSquared A B : ℚ) : ℝ) - 2 * ((EPSILON : ℚ) : ℝ) := by
      exact_mod_cast hsum
    have habqR : ((distanceSquared A B : ℚ) : ℝ) ≤ 1 := by exact_mod_cast habq
    have hepsR : (0 : ℝ) < ((EPSILON : ℚ) : ℝ) ∧ ((EPSILON : ℚ) : ℝ) < 2 := by
      constructor <;> · rw [show ((EPSILON : ℚ) : ℝ) = 1 / 1000000 by
        norm_num [EPSILON]]; norm_num
    set s := Real.sqrt ((distanceSquared A B : ℚ) : ℝ) with hs
    have hssq : s ^ 2 = ((distanceSquared A B : ℚ) : ℝ) := Real.sq_sqrt hab0
    have hs0 : 0 ≤ s := Real.sqrt_nonneg _
    have hs1 : s ≤ 1 := Real.sqrt_le_one.2 habqR
    have hspos : 0 < s - ((EPSILON : ℚ) : ℝ) := by
      by_contra hle
      push_neg at hle
      nlinarith [hepsR.1, hepsR.2, hak0, hbk0]
    have hak : Real.sqrt ((distanceSquared A K : ℚ) : ℝ) <
        s - ((EPSILON : ℚ) : ℝ) := by
      rw [Real.sqrt_lt' hspos]
      nlinarith [hepsR.1, hbk0, hs1]
    have hbk : Real.sqrt ((distanceSquared B K : ℚ) : ℝ) <
        s - ((EPSILON : ℚ) : ℝ) := by
      rw [Real.sqrt_lt' hspos]
      nlinarith [hepsR.1, hak0, hs1]
    apply hkeep k hk hk1 hk2
    rw [distance_eq_sqrt_distanceSquared, distance_eq_sqrt_distanceSquared,
      distance_eq_sqrt_distanceSquared, ← hA, ← hB, ← hK, ← hs]
    exact max_lt hak hbk

/-- C2 witness: the amended inclusion applied to a concrete two-point set
whose only candidate edge has squared length 1/4: the edge kept by the RNG
filter is in the Gabriel output. -/
theorem gabriel_subset_candidates_rng_subset_gabriel_witness :
    (0, 1) ∈ computeGabrielEdges [⟨0, 0, 0⟩, ⟨1, 1 / 2, 0⟩] [(0, 1)] := by
  apply (gabriel_subset_candidates_rng_subset_gabriel
    [⟨0, 0, 0⟩, ⟨1, 1 / 2, 0⟩] [(0, 1)]).2
  · intro e he
    fin_cases he
    norm_num [distanceSquared]
  · rw [mem_computeRelativeNeighborhoodEdges_iff]
    refine ⟨by decide, ?_⟩
    intro k hk hk0 hk1 _
    simp only [List.length_cons, List.length_nil] at hk
    omega

/-- Concrete configuration refuting the unconditional RNG ⊆ Gabriel claim:
a long horizontal edge from (0,0) to (2,0) and a third point at
(9e-7, 0), just inside the diametral circle near one endpoint. -/
def pointsC2 : List Point := [⟨0, 0, 0⟩, ⟨1, 2, 0⟩, ⟨2, 9 / 10000000, 0⟩]

/-- The single candidate edge for the C2 counterexample. -/
def candC2 : List (Nat × Nat) := [(0, 1)]

/-- C2 counterexample: with pointsC2 and the candidate list [(0,1)], the RNG
filter keeps edge (0,1) but the Gabriel filter removes it, so the RNG output
is not a subset of the Gabriel output. -/
theorem rng_not_subset_gabriel :
    ¬ (∀ e ∈ computeRelativeNeighborhoodEdges pointsC2 candC2,
        e ∈ computeGabrielEdges pointsC2 candC2) := by
  intro hsub
  have hgab : (0, 1) ∉ computeGabrielEdges pointsC2 candC2 := by
    intro hmem
    rw [mem_computeGabrielEdges_iff] at hmem
    have h2 := hmem.2 2 (by norm_num [pointsC2]) (by norm_num) (by norm_num)
    have hins : gabrielInside pointsC2 0 1 2 = true := by
      simp only [gabrielInside, decide_eq_true_eq]
      norm_num [pointsC2, distanceSquared, EPSILON]
    rw [h2] at hins
    exact Bool.false_ne_true hins
  apply hgab
  apply hsub
  rw [mem_computeRelativeNeighborhoodEdges_iff]
  refine ⟨by decide, ?_⟩
  intro k hk hk0 hk1
  have hk2 : k = 2 := by
    simp only [pointsC2, List.length_cons, List.length_nil] at hk
    omega
  subst hk2
  have e0 : pointsC2.getD 0 default = ⟨0, 0, 0⟩ := rfl
  have e1 : pointsC2.getD 1 default = ⟨1, 2, 0⟩ := rfl
  have e2 : pointsC2.getD 2 default = ⟨2, 9 / 10000000, 0⟩ := rfl
  rw [e0, e1, e2]
  have hd01 : distance (⟨0, 0, 0⟩ : Point) ⟨1, 2, 0⟩ = 2 := by
    unfold distance
    rw [show ((((⟨0, 0, 0⟩ : Point).x : ℝ) - ((⟨1, 2, 0⟩ : Point).x : ℝ)) ^ 2 +
        (((⟨0, 0, 0⟩ : Point).y : ℝ) - ((⟨1, 2, 0⟩ : Point).y : ℝ)) ^ 2) = 2 ^ 2 by
      push_cast
      norm_num]
    exact Real.sqrt_sq (by norm_num)
  have hd02 : distance (⟨0, 0, 0⟩ : Point) ⟨2, 9 / 10000000, 0⟩ = 9 / 10000000 := by
    unfold distance
    rw [show ((((⟨0, 0, 0⟩ : Point).x : ℝ) - ((⟨2, 9 / 10000000, 0⟩ : Point).x : ℝ)) ^ 2 +
        (((⟨0, 0, 0⟩ : Point).y : ℝ) - ((⟨2, 9 / 10000000, 0⟩ : Point).y : ℝ)) ^ 2) =
        (9 / 10000000) ^ 2 by
      push_cast
      norm_num]
    exact Real.sqrt_sq (by norm_num)
  have hd12 : distance (⟨1, 2, 0⟩ : Point) ⟨2, 9 / 10000000, 0⟩ = 2 - 9 / 10000000 := by
    unfold distance
    rw [show ((((⟨1, 2, 0⟩ : Point).x : ℝ) - ((⟨2, 9 / 10000000, 0⟩ : Point).x : ℝ)) ^ 2 +
        (((⟨1, 2, 0⟩ : Point).y : ℝ) - ((⟨2, 9 / 10000000, 0⟩ : Point).y : ℝ)) ^ 2) =
        (2 - 9 / 10000000) ^ 2 by
      push_cast
      norm_num]
    exact Real.sqrt_sq (by norm_num)
  rw [hd01, hd02, hd12]
  rw [show ((EPSILON : ℚ) : ℝ) = 1 / 1000000 by norm_num [EPSILON]]
  rw [max_eq_right (by norm_num)]
  norm_num

/-! ## Alpha shape / alpha complex (geometry-algorithms.ts, computeAlphaData) -/

/-- AlphaData from types.ts. -/
structure AlphaData where
  triangles : List (Nat × Nat × Nat)
  allEdges : List (Nat × Nat)
  boundaryEdges : List (Nat × Nat)

/-- One edgeCount.set(key, (edgeCount.get(key) ?? 0) + 1) step on the
insertion-ordered association list modelling the JavaScript Map. -/
def bumpCount : List ((Nat × Nat) × Nat) → (Nat × Nat) → List ((Nat × Nat) × Nat)
  | [], key => [(key, 1)]
  | (k, c) :: rest, key =>
    if k = key then (k, c + 1) :: rest else (k, c) :: bumpCount rest key

/-- The triangle-collection loop of computeAlphaData: steps three indices at a
time through the flat triangle array, skips degenerate or incomplete index
triples, skips triangles whose circumradius is infinite or greater than
alpha, and otherwise records the triangle and bumps its three edge
counters. -/
noncomputable def alphaLoop (points : List Point) (alpha : ℝ) :
    List Nat → List (Nat × Nat × Nat) → List ((Nat × Nat) × Nat) →
      List (Nat × Nat × Nat) × List ((Nat × Nat) × Nat)
  | i0 :: i1 :: i2 :: rest, tris, counts =>
    if i0 = i1 ∨ i1 = i2 ∨ i2 = i0 then alphaLoop points alpha rest tris counts
    else
      let p0 := points.getD i0 default
      let p1 := points.getD i1 default
      let p2 := points.getD i2 default
      let radius := circumradius p0.x p0.y p1.x p1.y p2.x p2.y
      if radius = ⊤ ∨ (alpha : WithTop ℝ) < radius then
        alphaLoop points alpha rest tris counts
      else
        alphaLoop points alpha rest (tris ++ [(i0, i1, i2)])
          (bumpCount (bumpCount (bumpCount counts (edgeKey i0 i1)) (edgeKey i1 i2))
            (edgeKey i2 i0))
  | _, tris, counts => (tris, counts)

/-- computeAlphaData from geometry-algorithms.ts: collect qualifying
triangles and their edge incidence counts, then read off all edges
(counter at least 1) and boundary edges (counter exactly 1). -/
noncomputable def computeAlphaData (points : List Point) (triangles : List Nat)
    (alpha : ℝ) : AlphaData :=
  let res := alphaLoop points alpha triangles [] []
  { triangles := res.1
    allEdges := res.2.map Prod.fst
    boundaryEdges := (res.2.filter fun kc => kc.2 = 1).map Prod.fst }

/-- The consecutive index triples of the flat triangle array (a trailing
partial chunk is dropped, as its missing entries read as undefined and are
skipped by the source loop). -/
def chunks3 : List Nat → List (Nat × Nat × Nat)
  | i0 :: i1 :: i2 :: rest => (i0, i1, i2) :: chunks3 rest
  | _ => []

/-- The circumradius of the triangle with vertex indices t over the given
point sequence. -/
noncomputable def triangleCircumradius (points : List Point)
    (t : Nat × Nat × Nat) : WithTop ℝ :=
  circumradius (points.getD t.1 default).x (points.getD t.1 default).y
    (points.getD t.2.1 default).x (points.getD t.2.1 default).y
    (points.getD t.2.2 default).x (points.getD t.2.2 default).y

theorem alphaLoop_triangles_mem (points : List Point) (alpha : ℝ) :
    ∀ (l : List Nat) (tris : List (Nat × Nat × Nat))
      (counts : List ((Nat × Nat) × Nat)) (t : Nat × Nat × Nat),
      t ∈ (alphaLoop points alpha l tris counts).1 ↔
        t ∈ tris ∨ (t ∈ chunks3 l ∧
          ¬ (t.1 = t.2.1 ∨ t.2.1 = t.2.2 ∨ t.2.2 = t.1) ∧
          ¬ (triangleCircumradius points t = ⊤ ∨
              (alpha : WithTop ℝ) < triangleCircumradius points t)) := by
  intro l tris counts
  induction l, tris, counts using alphaLoop.induct points alpha with
  | case1 i0 i1 i2 rest tris counts hdeg ih =>
    intro t
    rw [alphaLoop, if_pos hdeg, ih]
    simp only [chunks3, List.mem_cons]
    constructor
    · rintro (h | ⟨hc, h2, h3⟩)
      · exact Or.inl h
      · exact Or.inr ⟨Or.inr hc, h2, h3⟩
    · rintro (h | ⟨(rfl | hc), h2, h3⟩)
      · exact Or.inl h
      · exact absurd hdeg h2
      · exact Or.inr ⟨hc, h2, h3⟩
  | case2 i0 i1 i2 rest tris counts hdeg p0 p1 p2 radius hskip ih =>
    intro t
    rw [alphaLoop, if_neg hdeg]
    simp only at hskip ⊢
    rw [if_pos hskip, ih]
    simp only [chunks3, List.mem_cons]
    constructor
    · rintro (h | ⟨hc, h2, h3⟩)
      · exact Or.inl h
      · exact Or.inr ⟨Or.inr hc, h2, h3⟩
    · rintro (h | ⟨(rfl | hc), h2, h3⟩)
      · exact Or.inl h
      · exact absurd hskip h3
      · exact Or.inr ⟨hc, h2, h3⟩
  | case3 i0 i1 i2 rest tris counts hdeg p0 p1 p2 radius hskip ih =>
    intro t
    rw [alphaLoop, if_neg hdeg]
    simp only at hskip ⊢
    rw [if_neg hskip, ih]
    simp only [chunks3, List.mem_cons, List.mem_append, List.mem_singleton,
      List.not_mem_nil, or_false]
    constructor
    · rintro ((h | rfl) | ⟨hc, h2, h3⟩)
      · exact Or.inl h
      · exact Or.inr ⟨Or.inl rfl, hdeg, hskip⟩
      · exact Or.inr ⟨Or.inr hc, h2, h3⟩
    · rintro (h | ⟨(rfl | hc), h2, h3⟩)
      · exact Or.inl (Or.inl h)
      · exact Or.inl (Or.inr rfl)
      · exact Or.inr ⟨hc, h2, h3⟩
  | case4 l tris counts hnomatch =>
    intro t
    match l, hnomatch with
    | [], _ => simp [alphaLoop, chunks3]
    | [a], _ => simp [alphaLoop, chunks3]
    | [a, b], _ => simp [alphaLoop, chunks3]
    | i0 :: i1 :: i2 :: rest, h => exact absurd rfl (h i0 i1 i2 rest)

/-- Membership in the qualifying-triangle list of computeAlphaData: a triangle
is listed exactly when it occurs as a complete chunk of the flat triangle
array, has pairwise distinct indices, and its circumradius is finite
(not the infinity sentinel) and at most alpha. -/
theorem mem_computeAlphaData_triangles_iff (points : List Point) (ts : List Nat)
    (alpha : ℝ) (t : Nat × Nat × Nat) :
    t ∈ (computeAlphaData points ts alpha).triangles ↔
      t ∈ chunks3 ts ∧
      (t.1 ≠ t.2.1 ∧ t.2.1 ≠ t.2.2 ∧ t.2.2 ≠ t.1) ∧
      triangleCircumradius points t ≠ ⊤ ∧
      triangleCircumradius points t ≤ (alpha : WithTop ℝ) := by
  show t ∈ (alphaLoop points alpha ts [] []).1 ↔ _
  rw [alphaLoop_triangles_mem]
  simp only [List.not_mem_nil, false_or]
  constructor
  · rintro ⟨hc, h2, h3⟩
    push_neg at h2 h3
    exact ⟨hc, h2, h3.1, h3.2⟩
  · rintro ⟨hc, h2, h3, h4⟩
    exact ⟨hc, by push_neg; exact h2, by push_neg; exact ⟨h3, h4⟩⟩

/-- C3: for every point sequence, flat triangulation array and thresholds
alpha1 < alpha2, the qualifying-triangle set of computeAlphaData at alpha1 is
a subset of the one at alpha2; and a triangle qualifies exactly when it is a
well-formed chunk with distinct indices whose circumradius is finite and at
most alpha (equality with alpha qualifies, as the source only skips on
radius > alpha). -/
theorem computeAlphaData_monotone_and_qualification :
    (∀ (points : List Point) (ts : List Nat) (alpha1 alpha2 : ℝ),
      alpha1 < alpha2 →
      ∀ t ∈ (computeAlphaData points ts alpha1).triangles,
        t ∈ (computeAlphaData points ts alpha2).triangles) ∧
    (∀ (points : List Point) (ts : List Nat) (alpha : ℝ) (t : Nat × Nat × Nat),
      t ∈ (computeAlphaData points ts alpha).triangles ↔
        t ∈ chunks3 ts ∧
        (t.1 ≠ t.2.1 ∧ t.2.1 ≠ t.2.2 ∧ t.2.2 ≠ t.1) ∧
        triangleCircumradius points t ≠ ⊤ ∧
        triangleCircumradius points t ≤ (alpha : WithTop ℝ)) := by
  refine ⟨?_, mem_computeAlphaData_triangles_iff⟩
  intro points ts alpha1 alpha2 hlt t ht
  rw [mem_computeAlphaData_triangles_iff] at ht ⊢
  refine ⟨ht.1, ht.2.1, ht.2.2.1, le_trans ht.2.2.2 ?_⟩
  exact_mod_cast le_of_lt hlt

/-- Scenario 1 of the spec: the right triangle (0,0), (4,0), (0,3) has
circumradius exactly 5/2. -/
theorem circumradius_right_triangle :
    circumradius 0 0 4 0 0 3 = ((5 / 2 : ℝ) : WithTop ℝ) := by
  have harea : triangleArea 0 0 4 0 0 3 = 6 := by norm_num [triangleArea]
  simp only [circumradius, harea]
  rw [if_neg (by norm_num)]
  rw [show ((((4 : ℚ)) : ℝ) - (((0 : ℚ)) : ℝ)) ^ 2 +
      ((((0 : ℚ)) : ℝ) - (((3 : ℚ)) : ℝ)) ^ 2 = 5 ^ 2 by push_cast; norm_num]
  rw [show ((((0 : ℚ)) : ℝ) - (((0 : ℚ)) : ℝ)) ^ 2 +
      ((((0 : ℚ)) : ℝ) - (((3 : ℚ)) : ℝ)) ^ 2 = 3 ^ 2 by push_cast; norm_num]
  rw [show ((((0 : ℚ)) : ℝ) - (((4 : ℚ)) : ℝ)) ^ 2 +
      ((((0 : ℚ)) : ℝ) - (((0 : ℚ)) : ℝ)) ^ 2 = 4 ^ 2 by push_cast; norm_num]
  rw [Real.sqrt_sq (by norm_num), Real.sqrt_sq (by norm_num),
    Real.sqrt_sq (by norm_num)]
  rw [show (((6 : ℚ)) : ℝ) = 6 by norm_num]
  norm_num

/-- C3 witness: monotonicity applied with alpha1 = 3 < alpha2 = 4 to the
right triangle of Scenario 1 (circumradius 5/2 ≤ 3). -/
theorem computeAlphaData_monotone_witness :
    (3 : ℝ) < 4 ∧
    (0, 1, 2) ∈ (computeAlphaData [⟨0, 0, 0⟩, ⟨1, 4, 0⟩, ⟨2, 0, 3⟩]
      [0, 1, 2] 4).triangles := by
  have hr : triangleCircumradius [(⟨0, 0, 0⟩ : Point), ⟨1, 4, 0⟩, ⟨2, 0, 3⟩]
      (0, 1, 2) = ((5 / 2 : ℝ) : WithTop ℝ) := circumradius_right_triangle
  refine ⟨by norm_num, ?_⟩
  apply computeAlphaData_monotone_and_qualification.1 _ _ 3 4 (by norm_num)
  rw [mem_computeAlphaData_triangles_iff]
  refine ⟨by decide, ⟨by decide, by decide, by decide⟩, ?_, ?_⟩
  · rw [hr]
    exact WithTop.coe_ne_top
  · rw [hr]
    exact_mod_cast (by norm_num : (5 / 2 : ℝ) ≤ 3)

/-! ## Degenerate triangles (C5) -/

/-- Modelled from the claim's words in C5: a degenerate triple of vertices,
either with a repeated vertex or with the three vertices collinear (vanishing
orientation determinant). -/
def degenerateTriple (ax ay bx by' cx cy : ℚ) : Prop :=
  ((ax, ay) = (bx, by') ∨ (bx, by') = (cx, cy) ∨ (cx, cy) = (ax, ay)) ∨
    (bx - ax) * (cy - ay) - (cx - ax) * (by' - ay) = 0

/-- C5: every degenerate (collinear or repeated-vertex) triple of points has
triangleArea 0 and circumradius equal to the positive-infinity sentinel, and
consequently no triangle whose three points form a degenerate triple is ever
contained in the qualifying-triangle set of computeAlphaData, for any (finite
real) alpha. -/
theorem degenerate_triangle_never_qualifies :
    (∀ ax ay bx by' cx cy : ℚ, degenerateTriple ax ay bx by' cx cy →
      triangleArea ax ay bx by' cx cy = 0 ∧
      circumradius ax ay bx by' cx cy = ⊤) ∧
    (∀ (points : List Point) (ts : List Nat) (alpha : ℝ) (t : Nat × Nat × Nat),
      degenerateTriple (points.getD t.1 default).x (points.getD t.1 default).y
        (points.getD t.2.1 default).x (points.getD t.2.1 default).y
        (points.getD t.2.2 default).x (points.getD t.2.2 default).y →
      t ∉ (computeAlphaData points ts alpha).triangles) := by
  have harea : ∀ ax ay bx by' cx cy : ℚ, degenerateTriple ax ay bx by' cx cy →
      triangleArea ax ay bx by' cx cy = 0 := by
    intro ax ay bx by' cx cy hdeg
    have hz : ax * (by' - cy) + bx * (cy - ay) + cx * (ay - by') = 0 := by
      rcases hdeg with (hp | hp | hp) | hdet
      · obtain ⟨h1, h2⟩ := Prod.mk.injEq .. ▸ hp
        rw [h1, h2]
        ring
      · obtain ⟨h1, h2⟩ := Prod.mk.injEq .. ▸ hp
        rw [h1, h2]
        ring
      · obtain ⟨h1, h2⟩ := Prod.mk.injEq .. ▸ hp
        rw [h1, h2]
        ring
      · linear_combination hdet
    rw [triangleArea, hz, abs_zero, zero_mul]
  have hrad : ∀ ax ay bx by' cx cy : ℚ, degenerateTriple ax ay bx by' cx cy →
      circumradius ax ay bx by' cx cy = ⊤ := by
    intro ax ay bx by' cx cy hdeg
    simp only [circumradius]
    rw [if_pos (harea ax ay bx by' cx cy hdeg)]
  refine ⟨fun ax ay bx by' cx cy hdeg =>
    ⟨harea ax ay bx by' cx cy hdeg, hrad ax ay bx by' cx cy hdeg⟩, ?_⟩
  intro points ts alpha t hdeg hmem
  rw [mem_computeAlphaData_triangles_iff] at hmem
  exact hmem.2.2.1 (hrad _ _ _ _ _ _ hdeg)

/-- C5 witness: the degenerate-triple theorem applied to the concrete
collinear triple (0,0), (1,0), (2,0). -/
theorem degenerate_triangle_never_qualifies_witness :
    degenerateTriple 0 0 1 0 2 0 ∧ triangleArea 0 0 1 0 2 0 = 0 ∧
      circumradius 0 0 1 0 2 0 = ⊤ := by
  have hd : degenerateTriple 0 0 1 0 2 0 := Or.inr (by norm_num)
  exact ⟨hd, (degenerate_triangle_never_qualifies.1 0 0 1 0 2 0 hd).1,
    (degenerate_triangle_never_qualifies.1 0 0 1 0 2 0 hd).2⟩

/-! ## Nearest-neighbor edges
(geometry-algorithms.ts, computeNearestNeighborEdges) -/

/-- The squared distance between points[i] and points[j]. -/
def nnDistSq (points : List Point) (i j : Nat) : ℚ :=
  distanceSquared (points.getD i default) (points.getD j default)

/-- The inner scan of computeNearestNeighborEdges for point i: fold over all
indices j, skipping j = i, updating on a strictly smaller squared distance;
the initial best distance is Number.POSITIVE_INFINITY and the initial best
index is -1. -/
def nearestScan (points : List Point) (i : Nat) : Int × WithTop ℚ :=
  (List.range points.length).foldl
    (fun acc j =>
      if i = j then acc
      else if (nnDistSq points i j : WithTop ℚ) < acc.2 then
        ((j : Int), (nnDistSq points i j : WithTop ℚ))
      else acc)
    (-1, ⊤)

/-- Insertion into the insertion-ordered list modelling the JavaScript Set of
edge keys (Set.add is a no-op on an existing key, appends otherwise). -/
def insertEdgeKey (s : List (Nat × Nat)) (k : Nat × Nat) : List (Nat × Nat) :=
  if k ∈ s then s else s ++ [k]

/-- computeNearestNeighborEdges from geometry-algorithms.ts: empty for fewer
than 2 points, otherwise one canonical edge per point to its scanned nearest
neighbor (when one was found), deduplicated through the key set;
Array.from(set, decodeEdgeKey) is the identity on the canonical pairs. -/
def computeNearestNeighborEdges (points : List Point) : List (Nat × Nat) :=
  if points.length < 2 then []
  else
    (List.range points.length).foldl
      (fun s i =>
        if 0 ≤ (nearestScan points i).1 then
          insertEdgeKey s (edgeKey i (nearestScan points i).1.toNat)
        else s)
      []

theorem nearestScan_step_spec (points : List Point) (i : Nat) : ∀ m : Nat,
    m ≤ points.length →
    (((List.range m).foldl
        (fun acc j =>
          if i = j then acc
          else if (nnDistSq points i j : WithTop ℚ) < acc.2 then
            ((j : Int), (nnDistSq points i j : WithTop ℚ))
          else acc)
        (-1, ⊤) = ((-1 : Int), (⊤ : WithTop ℚ)) ∧ ∀ j, j < m → j = i) ∨
      (∃ j0, j0 < m ∧ j0 ≠ i ∧
        (List.range m).foldl
          (fun acc j =>
            if i = j then acc
            else if (nnDistSq points i j : WithTop ℚ) < acc.2 then
              ((j : Int), (nnDistSq points i j : WithTop ℚ))
            else acc)
          (-1, ⊤) = ((j0 : Int), (nnDistSq points i j0 : WithTop ℚ)) ∧
        (∀ j, j < m → j ≠ i → nnDistSq points i j0 ≤ nnDistSq points i j) ∧
        (∀ j, j < j0 → j ≠ i → nnDistSq points i j0 < nnDistSq points i j))) := by
  intro m
  induction m with
  | zero =>
    intro _
    exact Or.inl ⟨rfl, by omega⟩
  | succ m ih =>
    intro hm1
    have hm : m ≤ points.length := by omega
    rw [List.range_succ, List.foldl_append, List.foldl_cons, List.foldl_nil]
    rcases ih hm with ⟨hacc, hall⟩ | ⟨j0, hj0m, hj0i, hacc, hmin, hstrict⟩
    · rw [hacc]
      by_cases him : i = m
      · rw [if_pos him]
        exact Or.inl ⟨rfl, fun j hj => by rcases Nat.lt_succ_iff_lt_or_eq.1 hj with h | h
                                          · exact hall j h
                                          · omega⟩
      · rw [if_neg him, if_pos (WithTop.coe_lt_top _)]
        refine Or.inr ⟨m, Nat.lt_succ_self m, fun h => him h.symm, rfl, ?_, ?_⟩
        · intro j hj hji
          rcases Nat.lt_succ_iff_lt_or_eq.1 hj with h | h
          · exact absurd (hall j h) hji
          · subst h; exact le_refl _
        · intro j hj hji
          exact absurd (hall j hj) hji
    · rw [hacc]
      by_cases him : i = m
      · rw [if_pos him]
        refine Or.inr ⟨j0, lt_trans hj0m (Nat.lt_succ_self m), hj0i, rfl, ?_, hstrict⟩
        intro j hj hji
        rcases Nat.lt_succ_iff_lt_or_eq.1 hj with h | h
        · exact hmin j h hji
        · subst h; exact absurd him.symm hji
      · rw [if_neg him]
        by_cases hlt : nnDistSq points i m < nnDistSq points i j0
        · rw [if_pos (WithTop.coe_lt_coe.2 hlt)]
          refine Or.inr ⟨m, Nat.lt_succ_self m, fun h => him h.symm, rfl, ?_, ?_⟩
          · intro j hj hji
            rcases Nat.lt_succ_iff_lt_or_eq.1 hj with h | h
            · exact le_trans (le_of_lt hlt) (hmin j h hji)
            · subst h; exact le_refl _
          · intro j hj hji
            exact lt_of_lt_of_le hlt (hmin j hj hji)
        · rw [if_neg (show ¬ ((nnDistSq points i m : WithTop ℚ) <
              ((nnDistSq points i j0 : ℚ) : WithTop ℚ)) from
            fun hco => hlt (WithTop.coe_lt_coe.1 hco))]
          refine Or.inr ⟨j0, lt_trans hj0m (Nat.lt_succ_self m), hj0i, rfl, ?_, hstrict⟩
          intro j hj hji
          rcases Nat.lt_succ_iff_lt_or_eq.1 hj with h | h
          · exact hmin j h hji
          · subst h; exact not_lt.1 hlt

/-- For at least two points, the nearest scan for each index i finds a valid
first argmin: a distinct in-range index whose squared distance to i is
minimal, strictly smaller than that of every smaller candidate index. -/
theorem nearestScan_spec (points : List Point) (i : Nat)
    (hn : 2 ≤ points.length) (hi : i < points.length) :
    0 ≤ (nearestScan points i).1 ∧
    (nearestScan points i).1.toNat < points.length ∧
    (nearestScan points i).1.toNat ≠ i ∧
    (∀ j, j < points.length → j ≠ i →
      nnDistSq points i (nearestScan points i).1.toNat ≤ nnDistSq points i j) ∧
    (∀ j, j < (nearestScan points i).1.toNat → j ≠ i →
      nnDistSq points i (nearestScan points i).1.toNat < nnDistSq points i j) := by
  rcases nearestScan_step_spec points i points.length (le_refl _) with
    ⟨_, hall⟩ | ⟨j0, hj0m, hj0i, hacc, hmin, hstrict⟩
  · exfalso
    rcases Nat.lt_or_ge i 1 with h | h
    · exact absurd (hall 1 (by omega)) (by omega)
    · exact absurd (hall 0 (by omega)) (by omega)
  · have hfold : nearestScan points i = ((j0 : Int), (nnDistSq points i j0 : WithTop ℚ)) := hacc
    rw [hfold]
    simp only [Int.toNat_natCast]
    exact ⟨Int.natCast_nonneg j0, hj0m, hj0i, hmin, hstrict⟩

/-- C8: for fewer than 2 points computeNearestNeighborEdges is empty; for at
least 2 points it equals the insertion-ordered deduplication, over all point
indices i in order, of the canonical edge between i and its scanned nearest
index — which is a valid first argmin of squared distance (ties broken by
the lowest index in the left-to-right scan) — and the canonical edge key is
symmetric, so a mutual nearest-neighbor pair contributes one edge. -/
theorem computeNearestNeighborEdges_spec (points : List Point) :
    (points.length < 2 → computeNearestNeighborEdges points = []) ∧
    (2 ≤ points.length →
      (∀ i, i < points.length →
        0 ≤ (nearestScan points i).1 ∧
        (nearestScan points i).1.toNat < points.length ∧
        (nearestScan points i).1.toNat ≠ i ∧
        (∀ j, j < points.length → j ≠ i →
          nnDistSq points i (nearestScan points i).1.toNat ≤ nnDistSq points i j) ∧
        (∀ j, j < (nearestScan points i).1.toNat → j ≠ i →
          nnDistSq points i (nearestScan points i).1.toNat < nnDistSq points i j)) ∧
      (∀ a b, edgeKey a b = edgeKey b a) ∧
      computeNearestNeighborEdges points =
        (List.range points.length).foldl
          (fun s i => insertEdgeKey s (edgeKey i (nearestScan points i).1.toNat))
          []) := by
  constructor
  · intro h
    unfold computeNearestNeighborEdges
    rw [if_pos h]
  · intro hn
    refine ⟨fun i hi => nearestScan_spec points i hn hi, edgeKey_comm, ?_⟩
    unfold computeNearestNeighborEdges
    rw [if_neg (by omega)]
    apply List.foldl_ext
    intro s j hj
    rw [if_pos (nearestScan_spec points j hn (List.mem_range.1 hj)).1]

/-- C8 witness: the characterization applied to a concrete two-point set. -/
theorem computeNearestNeighborEdges_spec_witness :
    2 ≤ ([⟨0, 0, 0⟩, ⟨1, 1, 0⟩] : List Point).length ∧
    computeNearestNeighborEdges [⟨0, 0, 0⟩, ⟨1, 1, 0⟩] =
      (List.range ([⟨0, 0, 0⟩, ⟨1, 1, 0⟩] : List Point).length).foldl
        (fun s i => insertEdgeKey s
          (edgeKey i (nearestScan [⟨0, 0, 0⟩, ⟨1, 1, 0⟩] i).1.toNat))
        [] :=
  ⟨by norm_num,
    ((computeNearestNeighborEdges_spec [⟨0, 0, 0⟩, ⟨1, 1, 0⟩]).2 (by norm_num)).2.2⟩

/-! ## Minimum spanning tree
(geometry-algorithms.ts, computeMinimumSpanningTreeEdges) -/

/-- The mutable loop state of Prim's algorithm: visited flags, best known
distance to the tree (Number.POSITIVE_INFINITY modelled as the top element),
and parent back-pointers (-1 as the "none" sentinel). The weight type is
kept generic in a linear order so that the source's real-valued distance
weights can be related to computable squared-distance weights. -/
structure PrimState (α : Type) where
  visited : List Bool
  distances : List (WithTop α)
  parent : List Int

/-- The inner linear scan of computeMinimumSpanningTreeEdges for the nearest
unvisited point (strict improvement, first minimum wins). -/
def findBest {α : Type} [LinearOrder α] (visited : List Bool)
    (distances : List (WithTop α)) (count : Nat) : Int × WithTop α :=
  (List.range count).foldl
    (fun acc j =>
      if visited.getD j false then acc
      else if distances.getD j ⊤ < acc.2 then ((j : Int), distances.getD j ⊤)
      else acc)
    (-1, ⊤)

/-- One relaxation step for index j after adding point b to the tree. -/
def relaxOnce {α : Type} [LinearOrder α] (w : Nat → Nat → α) (b : Nat)
    (st : PrimState α) (j : Nat) : PrimState α :=
  if st.visited.getD j false then st
  else if (w b j : WithTop α) < st.distances.getD j ⊤ then
    { st with distances := st.distances.set j (w b j),
              parent := st.parent.set j (b : Int) }
  else st

/-- Relaxation of all indices after adding point b. -/
def relax {α : Type} [LinearOrder α] (w : Nat → Nat → α) (count b : Nat)
    (st : PrimState α) : PrimState α :=
  (List.range count).foldl (relaxOnce w b) st

/-- The main iteration loop of Prim's algorithm (count - 1 rounds; the
negative best index is the defensive break of the source). -/
def primLoop {α : Type} [LinearOrder α] (w : Nat → Nat → α) (count : Nat) :
    Nat → PrimState α → List (Nat × Nat) → List (Nat × Nat)
  | 0, _, edges => edges
  | k + 1, st, edges =>
    let best := findBest st.visited st.distances count
    if best.1 < 0 then edges
    else
      let b := best.1.toNat
      let st1 : PrimState α := { st with visited := st.visited.set b true }
      let parentIndex := st.parent.getD b (-1)
      let edges1 :=
        if 0 ≤ parentIndex then
          edges ++ [(min b parentIndex.toNat, max b parentIndex.toNat)]
        else edges
      primLoop w count k (relax w count b st1) edges1

/-- The initial state of computeMinimumSpanningTreeEdges: point 0 visited;
every other point at distance w 0 i from the tree with parent 0 (the source
fills the arrays with infinity / -1 and then overwrites every index other
than 0). -/
def primInit {α : Type} (w : Nat → Nat → α) (count : Nat) : PrimState α :=
  { visited := (List.replicate count false).set 0 true
    distances := (List.range count).map fun i =>
      if i = 0 then (⊤ : WithTop α) else ((w 0 i : α) : WithTop α)
    parent := (List.range count).map fun i => if i = 0 then (-1 : Int) else 0 }

/-- Prim's algorithm, generic in the edge weight: empty for fewer than two
points, otherwise count - 1 loop rounds from the initial state. -/
def primEdges {α : Type} [LinearOrder α] (w : Nat → Nat → α) (count : Nat) :
    List (Nat × Nat) :=
  if count < 2 then []
  else primLoop w count (count - 1) (primInit w count) []

/-- computeMinimumSpanningTreeEdges from geometry-algorithms.ts, with the
source's real-valued Euclidean distance weights. -/
noncomputable def computeMinimumSpanningTreeEdges (points : List Point) :
    List (Nat × Nat) :=
  primEdges (fun i j => distance (points.getD i default) (points.getD j default))
    points.length

/-- The same algorithm run on squared-distance weights; the loop only
compares weights, so this computable run produces the same edges (proved
below through strict monotonicity of the square root). -/
def computeMinimumSpanningTreeEdgesQ (points : List Point) : List (Nat × Nat) :=
  primEdges
    (fun i j => distanceSquared (points.getD i default) (points.getD j default))
    points.length

/-- The undirected graph on Fin n induced by a list of index pairs. -/
def edgeGraph (n : Nat) (es : List (Nat × Nat)) : SimpleGraph (Fin n) :=
  SimpleGraph.fromRel fun i j => ((i : Nat), (j : Nat)) ∈ es

/-! ### List access helper lemmas -/

theorem getD_set_self {α : Type _} (l : List α) (i : Nat) (a d : α)
    (h : i < l.length) : (l.set i a).getD i d = a := by
  rw [List.getD_eq_getD_get?, List.get?_set_eq_of_lt a h, Option.getD_some]

theorem getD_set_ne {α : Type _} (l : List α) {i j : Nat} (a d : α)
    (h : i ≠ j) : (l.set i a).getD j d = l.getD j d := by
  rw [List.getD_eq_getD_get?, List.get?_set_ne a l h, ← List.getD_eq_getD_get?]

theorem getD_map_range {β : Type _} {n j : Nat} (f : Nat → β) (d : β)
    (h : j < n) : ((List.range n).map f).getD j d = f j := by
  rw [List.getD_eq_getElem _ _ (by simpa using h)]
  simp

theorem getD_replicate_false {n j : Nat} :
    (List.replicate n false).getD j false = false := by
  rcases Nat.lt_or_ge j n with h | h
  · rw [List.getD_eq_getElem _ _ (by simpa using h)]
    simp
  · rw [List.getD_eq_default _ _ (by simpa using h)]

theorem count_true_set (l : List Bool) (b : Nat) (hb : b < l.length)
    (hf : l.getD b false = false) :
    (l.set b true).count true = l.count true + 1 := by
  induction l generalizing b with
  | nil => simp at hb
  | cons x xs ih =>
    cases b with
    | zero =>
      have hx : x = false := hf
      subst hx
      simp [List.count_cons]
    | succ b =>
      have hlen : b < xs.length := by simpa using hb
      have hfx : xs.getD b false = false := hf
      simp only [List.set_cons_succ, List.count_cons, ih b hlen hfx]
      omega

theorem all_visited_of_count (l : List Bool) (h : l.count true = l.length) :
    ∀ j, j < l.length → l.getD j false = true := by
  induction l with
  | nil => intro j hj; simp at hj
  | cons x xs ih =>
    have hle := List.count_le_length (a := true) (l := xs)
    cases x with
    | false =>
      exfalso
      simp [List.count_cons] at h
      omega
    | true =>
      have hxs : xs.count true = xs.length := by
        simp [List.count_cons] at h
        omega
      intro j hj
      cases j with
      | zero => rfl
      | succ j => exact ih hxs j (by simpa using hj)

theorem exists_unvisited_of_count (l : List Bool) (h : l.count true < l.length) :
    ∃ j, j < l.length ∧ l.getD j false = false := by
  induction l with
  | nil => simp at h
  | cons x xs ih =>
    cases x with
    | false => exact ⟨0, by simp, rfl⟩
    | true =>
      have hxs : xs.count true < xs.length := by
        simp [List.count_cons] at h
        omega
      obtain ⟨j, hj, hjf⟩ := ih hxs
      exact ⟨j + 1, by simpa using hj, hjf⟩

/-! ### findBest: the nearest-unvisited scan finds a valid index -/

theorem findBest_step {α : Type} [LinearOrder α] (visited : List Bool)
    (distances : List (WithTop α)) (count : Nat)
    (hfin : ∀ j, j < count → visited.getD j false = false →
      distances.getD j ⊤ ≠ ⊤) :
    ∀ m : Nat, m ≤ count →
      ((List.range m).foldl
          (fun acc j =>
            if visited.getD j false then acc
            else if distances.getD j ⊤ < acc.2 then ((j : Int), distances.getD j ⊤)
            else acc)
          (-1, ⊤) = ((-1 : Int), (⊤ : WithTop α)) ∧
        ∀ j, j < m → visited.getD j false = true) ∨
      (∃ j0, j0 < m ∧ visited.getD j0 false = false ∧
        (List.range m).foldl
          (fun acc j =>
            if visited.getD j false then acc
            else if distances.getD j ⊤ < acc.2 then ((j : Int), distances.getD j ⊤)
            else acc)
          (-1, ⊤) = ((j0 : Int), distances.getD j0 ⊤)) := by
  intro m
  induction m with
  | zero => exact fun _ => Or.inl ⟨rfl, by omega⟩
  | succ m ih =>
    intro hm1
    have hm : m ≤ count := by omega
    rw [List.range_succ, List.foldl_append, List.foldl_cons, List.foldl_nil]
    rcases ih hm with ⟨hacc, hall⟩ | ⟨j0, hj0, hj0f, hacc⟩
    · rw [hacc]
      cases hvm : visited.getD m false with
      | true =>
        rw [if_pos rfl]
        refine Or.inl ⟨rfl, fun j hj => ?_⟩
        rcases Nat.lt_succ_iff_lt_or_eq.1 hj with h | h
        · exact hall j h
        · subst h; exact hvm
      | false =>
        rw [if_neg Bool.false_ne_true]
        rw [if_pos (lt_top_iff_ne_top.2 (hfin m (by omega) hvm))]
        exact Or.inr ⟨m, Nat.lt_succ_self m, hvm, rfl⟩
    · rw [hacc]
      cases hvm : visited.getD m false with
      | true =>
        rw [if_pos rfl]
        exact Or.inr ⟨j0, lt_trans hj0 (Nat.lt_succ_self m), hj0f, rfl⟩
      | false =>
        rw [if_neg Bool.false_ne_true]
        by_cases hlt : distances.getD m ⊤ < distances.getD j0 ⊤
        · rw [if_pos hlt]
          exact Or.inr ⟨m, Nat.lt_succ_self m, hvm, rfl⟩
        · rw [if_neg hlt]
          exact Or.inr ⟨j0, lt_trans hj0 (Nat.lt_succ_self m), hj0f, rfl⟩

theorem findBest_spec {α : Type} [LinearOrder α] (visited : List Bool)
    (distances : List (WithTop α)) (count : Nat)
    (hfin : ∀ j, j < count → visited.getD j false = false →
      distances.getD j ⊤ ≠ ⊤)
    (hex : ∃ j, j < count ∧ visited.getD j false = false) :
    0 ≤ (findBest visited distances count).1 ∧
    (findBest visited distances count).1.toNat < count ∧
    visited.getD (findBest visited distances count).1.toNat false = false := by
  obtain ⟨je, hje, hjef⟩ := hex
  rcases findBest_step visited distances count hfin count (le_refl _) with
    ⟨_, hall⟩ | ⟨j0, hj0, hj0f, hacc⟩
  · exact absurd (hall je hje) (by rw [hjef]; exact Bool.false_ne_true)
  · have : findBest visited distances count = ((j0 : Int), distances.getD j0 ⊤) :=
      hacc
    rw [this]
    simp only [Int.toNat_natCast]
    exact ⟨Int.natCast_nonneg j0, hj0, hj0f⟩

/-! ### relax: what the relaxation pass can do to the state -/

theorem relaxOnce_visited {α : Type} [LinearOrder α] (w : Nat → Nat → α)
    (b : Nat) (st : PrimState α) (j : Nat) :
    (relaxOnce w b st j).visited = st.visited := by
  unfold relaxOnce
  split
  · rfl
  · split <;> rfl

theorem relaxOnce_lengths {α : Type} [LinearOrder α] (w : Nat → Nat → α)
    (b : Nat) (st : PrimState α) (j : Nat) :
    (relaxOnce w b st j).distances.length = st.distances.length ∧
    (relaxOnce w b st j).parent.length = st.parent.length := by
  unfold relaxOnce
  split
  · exact ⟨rfl, rfl⟩
  · split
    · exact ⟨List.length_set .., List.length_set ..⟩
    · exact ⟨rfl, rfl⟩

theorem relax_visited {α : Type} [LinearOrder α] (w : Nat → Nat → α)
    (count b : Nat) (st : PrimState α) :
    (relax w count b st).visited = st.visited := by
  unfold relax
  generalize List.range count = l
  induction l generalizing st with
  | nil => rfl
  | cons x t ih => rw [List.foldl_cons, ih, relaxOnce_visited]

theorem relax_lengths {α : Type} [LinearOrder α] (w : Nat → Nat → α)
    (count b : Nat) (st : PrimState α) :
    (relax w count b st).distances.length = st.distances.length ∧
    (relax w count b st).parent.length = st.parent.length := by
  unfold relax
  generalize List.range count = l
  induction l generalizing st with
  | nil => exact ⟨rfl, rfl⟩
  | cons x t ih =>
    rw [List.foldl_cons]
    obtain ⟨h1, h2⟩ := ih (relaxOnce w b st x)
    obtain ⟨h3, h4⟩ := relaxOnce_lengths w b st x
    exact ⟨h1.trans h3, h2.trans h4⟩

theorem relax_distances_cases {α : Type} [LinearOrder α] (w : Nat → Nat → α)
    (count b : Nat) (st : PrimState α) (j : Nat) :
    (relax w count b st).distances.getD j ⊤ = st.distances.getD j ⊤ ∨
    ∃ v : α, (relax w count b st).distances.getD j ⊤ = (v : WithTop α) := by
  unfold relax
  generalize List.range count = l
  induction l generalizing st with
  | nil => exact Or.inl rfl
  | cons x t ih =>
    rw [List.foldl_cons]
    rcases ih (relaxOnce w b st x) with h | h
    · rw [h]
      unfold relaxOnce
      split
      · exact Or.inl rfl
      · split
        · by_cases hxj : x = j
          · subst hxj
            rcases Nat.lt_or_ge x st.distances.length with hlen | hlen
            · exact Or.inr ⟨w b x, getD_set_self _ _ _ _ hlen⟩
            · rw [List.getD_eq_default _ _ (by simpa using hlen),
                List.getD_eq_default _ _ (by simpa using hlen)]
              exact Or.inl rfl
          · exact Or.inl (getD_set_ne _ _ _ hxj)
        · exact Or.inl rfl
    · exact Or.inr h

theorem relax_parent_cases {α : Type} [LinearOrder α] (w : Nat → Nat → α)
    (count b : Nat) (st : PrimState α) (j : Nat) :
    (relax w count b st).parent.getD j (-1) = st.parent.getD j (-1) ∨
    (relax w count b st).parent.getD j (-1) = (b : Int) := by
  unfold relax
  generalize List.range count = l
  induction l generalizing st with
  | nil => exact Or.inl rfl
  | cons x t ih =>
    rw [List.foldl_cons]
    rcases ih (relaxOnce w b st x) with h | h
    · rw [h]
      unfold relaxOnce
      split
      · exact Or.inl rfl
      · split
        · by_cases hxj : x = j
          · subst hxj
            rcases Nat.lt_or_ge x st.parent.length with hlen | hlen
            · exact Or.inr (getD_set_self _ _ _ _ hlen)
            · rw [List.getD_eq_default _ _ (by simpa using hlen),
                List.getD_eq_default _ _ (by simpa using hlen)]
              exact Or.inl rfl
          · exact Or.inl (getD_set_ne _ _ _ hxj)
        · exact Or.inl rfl
    · exact Or.inr h

/-! ### Graph lemmas for the spanning-tree invariant -/

theorem edgeGraph_adj (n : Nat) (es : List (Nat × Nat)) (x y : Fin n) :
    (edgeGraph n es).Adj x y ↔
      x ≠ y ∧ (((x : Nat), (y : Nat)) ∈ es ∨ ((y : Nat), (x : Nat)) ∈ es) := by
  unfold edgeGraph
  rw [SimpleGraph.fromRel_adj]

theorem edgeGraph_le (n : Nat) {es es' : List (Nat × Nat)} (h : es ⊆ es') :
    edgeGraph n es ≤ edgeGraph n es' := by
  intro x y hadj
  rw [edgeGraph_adj] at hadj ⊢
  exact ⟨hadj.1, hadj.2.imp (fun hm => h hm) fun hm => h hm⟩

/-- Adding a single edge from an isolated vertex b to a vertex p of an
acyclic graph keeps it acyclic: any cycle in the extended graph either
avoids b and lives in the old graph, or visits b, where it must use the only
edge at b twice. -/
theorem isAcyclic_pendant {V : Type} [DecidableEq V] (G G' : SimpleGraph V) (b p : V)
    (hbp : b ≠ p) (hiso : ∀ x, ¬ G.Adj b x) (hG : G.IsAcyclic)
    (hadj : ∀ x y, G'.Adj x y ↔
      (G.Adj x y ∨ (x = b ∧ y = p) ∨ (x = p ∧ y = b))) :
    G'.IsAcyclic := by
  have hnbr : ∀ x, G'.Adj b x → x = p := by
    intro x hx
    rcases (hadj b x).1 hx with hA | ⟨_, rfl⟩ | ⟨hb, _⟩
    · exact absurd hA (hiso x)
    · rfl
    · exact absurd hb hbp
  intro v c hc
  by_cases hb : b ∈ c.support
  · have hc' := hc.rotate hb
    generalize hgen : c.rotate hb = c2 at hc'
    clear hgen
    cases c2 with
    | nil => exact SimpleGraph.Walk.IsCycle.not_of_nil hc'
    | cons h q =>
      rename_i x
      have hx : x = p := hnbr x h
      have hbx : b ≠ x := by rw [hx]; exact hbp
      rw [SimpleGraph.Walk.cons_isCycle_iff] at hc'
      obtain ⟨_, hne⟩ := hc'
      apply hne
      obtain ⟨w', hadj', q'', hq''⟩ :=
        SimpleGraph.Walk.exists_eq_cons_of_ne hbx q.reverse
      have hw' : w' = x := by rw [hnbr w' hadj', hx]
      have hmem : s(b, x) ∈ q.reverse.edges := by
        rw [hq'', SimpleGraph.Walk.edges_cons]
        exact List.mem_cons.2 (Or.inl (by rw [hw']))
      rw [SimpleGraph.Walk.edges_reverse, List.mem_reverse] at hmem
      exact hmem
  · have hedges : ∀ e ∈ c.edges, e ∈ G.edgeSet := by
      intro e
      induction e using Sym2.ind with
      | _ x y =>
        intro he
        have hadjxy : G'.Adj x y :=
          (SimpleGraph.mem_edgeSet G').1 (c.edges_subset_edgeSet he)
        rcases (hadj x y).1 hadjxy with hA | ⟨rfl, rfl⟩ | ⟨rfl, rfl⟩
        · exact (SimpleGraph.mem_edgeSet G).2 hA
        · exact absurd (c.fst_mem_support_of_mem_edges he) hb
        · exact absurd (c.snd_mem_support_of_mem_edges he) hb
    exact hG _ (hc.transfer hedges)

theorem getD_set_true_mono (l : List Bool) (b j : Nat)
    (h : l.getD j false = true) : (l.set b true).getD j false = true := by
  by_cases hbj : b = j
  · subst hbj
    rcases Nat.lt_or_ge b l.length with hl | hl
    · exact getD_set_self _ _ _ _ hl
    · rw [List.getD_eq_default _ _ hl] at h
      exact absurd h Bool.false_ne_true
  · rw [getD_set_ne _ _ _ hbj]
    exact h

/-- The loop invariant of Prim's algorithm: array lengths, point 0 visited,
finite distances and visited valid parents for the unvisited, the visited
count tracking the emitted edge count, emitted edges canonical between
visited vertices, and the emitted edge set an acyclic graph reaching every
visited vertex from vertex 0. -/
structure PrimInv {α : Type} [LinearOrder α] (n : Nat) (st : PrimState α)
    (es : List (Nat × Nat)) : Prop where
  hn : 0 < n
  hvlen : st.visited.length = n
  hdlen : st.distances.length = n
  hplen : st.parent.length = n
  hzero : st.visited.getD 0 false = true
  hfin : ∀ j, j < n → st.visited.getD j false = false →
    st.distances.getD j ⊤ ≠ ⊤
  hpar : ∀ j, j < n → st.visited.getD j false = false →
    0 ≤ st.parent.getD j (-1) ∧ (st.parent.getD j (-1)).toNat < n ∧
      st.visited.getD (st.parent.getD j (-1)).toNat false = true
  hcount : st.visited.count true = es.length + 1
  hbound : ∀ e ∈ es, e.1 < e.2 ∧ e.2 < n ∧
    st.visited.getD e.1 false = true ∧ st.visited.getD e.2 false = true
  hacyc : (edgeGraph n es).IsAcyclic
  hreach : ∀ j, (hj : j < n) → st.visited.getD j false = true →
    (edgeGraph n es).Reachable ⟨0, hn⟩ ⟨j, hj⟩

theorem primLoop_spec {α : Type} [LinearOrder α] (w : Nat → Nat → α) (n : Nat) :
    ∀ (k : Nat) (st : PrimState α) (es : List (Nat × Nat)),
      PrimInv n st es → es.length + 1 + k = n →
      (primLoop w n k st es).length = n - 1 ∧
      (edgeGraph n (primLoop w n k st es)).IsAcyclic ∧
      (∀ u v : Fin n, (edgeGraph n (primLoop w n k st es)).Reachable u v) := by
  intro k
  induction k with
  | zero =>
    intro st es inv harith
    have h0 : primLoop w n 0 st es = es := rfl
    rw [h0]
    refine ⟨by omega, inv.hacyc, ?_⟩
    have hall : ∀ j, j < n → st.visited.getD j false = true := by
      have hcnt : st.visited.count true = st.visited.length := by
        rw [inv.hvlen, inv.hcount]
        omega
      intro j hj
      exact all_visited_of_count st.visited hcnt j (by rw [inv.hvlen]; exact hj)
    intro u v
    have hu := inv.hreach u.1 u.2 (hall u.1 u.2)
    have hv := inv.hreach v.1 v.2 (hall v.1 v.2)
    exact hu.symm.trans hv
  | succ k ih =>
    intro st es inv harith
    have hlt : st.visited.count true < st.visited.length := by
      rw [inv.hvlen, inv.hcount]
      omega
    obtain ⟨ju, hju, hjuf⟩ := exists_unvisited_of_count st.visited hlt
    rw [inv.hvlen] at hju
    have hfb := findBest_spec st.visited st.distances n inv.hfin ⟨ju, hju, hjuf⟩
    set b := (findBest st.visited st.distances n).1.toNat with hbdef
    obtain ⟨hp0, hpn, hpv⟩ := inv.hpar b hfb.2.1 hfb.2.2
    set p := (st.parent.getD b (-1)).toNat with hpdef
    have hbp : b ≠ p := by
      intro hEq
      have hbf := hfb.2.2
      rw [hEq] at hbf
      rw [hbf] at hpv
      exact Bool.false_ne_true hpv
    have hloop : primLoop w n (k + 1) st es =
        primLoop w n k (relax w n b { st with visited := st.visited.set b true })
          (es ++ [(min b p, max b p)]) := by
      simp only [primLoop]
      rw [if_neg (not_lt.2 hfb.1), if_pos hp0]
    rw [hloop]
    set st1 : PrimState α := { st with visited := st.visited.set b true } with hst1
    set st2 := relax w n b st1 with hst2
    set enew := (min b p, max b p) with henew
    have hv2 : st2.visited = st.visited.set b true := by
      rw [hst2, relax_visited]
    have hbltv : b < st.visited.length := by rw [inv.hvlen]; exact hfb.2.1
    have hvb2 : st2.visited.getD b false = true := by
      rw [hv2]
      exact getD_set_self _ _ _ _ hbltv
    have hmono : edgeGraph n es ≤ edgeGraph n (es ++ [enew]) :=
      edgeGraph_le n (List.subset_append_left es [enew])
    have hunvis : ∀ j, st2.visited.getD j false = false →
        j ≠ b ∧ st.visited.getD j false = false := by
      intro j hj2
      have hjb : j ≠ b := by
        intro h
        rw [h, hvb2] at hj2
        exact Bool.false_ne_true hj2.symm
      refine ⟨hjb, ?_⟩
      rw [hv2] at hj2
      rwa [getD_set_ne _ _ _ (fun h => hjb h.symm)] at hj2
    have hFne : (⟨b, hfb.2.1⟩ : Fin n) ≠ ⟨p, hpn⟩ := Fin.ne_of_val_ne hbp
    have hpairiff : ∀ u v : Fin n,
        (((u : Nat), (v : Nat)) = enew ∨ ((v : Nat), (u : Nat)) = enew) ↔
          ((u = ⟨b, hfb.2.1⟩ ∧ v = ⟨p, hpn⟩) ∨
            (u = ⟨p, hpn⟩ ∧ v = ⟨b, hfb.2.1⟩)) := by
      intro u v
      rcases Nat.lt_or_ge b p with hord | hord
      · rw [henew, Nat.min_eq_left (le_of_lt hord), Nat.max_eq_right (le_of_lt hord)]
        constructor
        · rintro (hEq | hEq)
          · obtain ⟨h1, h2⟩ := Prod.mk.injEq .. ▸ hEq
            exact Or.inl ⟨Fin.ext h1, Fin.ext h2⟩
          · obtain ⟨h1, h2⟩ := Prod.mk.injEq .. ▸ hEq
            exact Or.inr ⟨Fin.ext h2, Fin.ext h1⟩
        · rintro (⟨rfl, rfl⟩ | ⟨rfl, rfl⟩)
          · exact Or.inl rfl
          · exact Or.inr rfl
      · have hple : p ≤ b := hord
        have hplt : p < b := lt_of_le_of_ne hple (Ne.symm hbp)
        rw [henew, Nat.min_eq_right hple, Nat.max_eq_left hple]
        constructor
        · rintro (hEq | hEq)
          · obtain ⟨h1, h2⟩ := Prod.mk.injEq .. ▸ hEq
            exact Or.inr ⟨Fin.ext h1, Fin.ext h2⟩
          · obtain ⟨h1, h2⟩ := Prod.mk.injEq .. ▸ hEq
            exact Or.inl ⟨Fin.ext h2, Fin.ext h1⟩
        · rintro (⟨rfl, rfl⟩ | ⟨rfl, rfl⟩)
          · exact Or.inr rfl
          · exact Or.inl rfl
    have hadjiff : ∀ x y : Fin n, (edgeGraph n (es ++ [enew])).Adj x y ↔
        ((edgeGraph n es).Adj x y ∨
          (x = ⟨b, hfb.2.1⟩ ∧ y = ⟨p, hpn⟩) ∨
          (x = ⟨p, hpn⟩ ∧ y = ⟨b, hfb.2.1⟩)) := by
      intro x y
      rw [edgeGraph_adj, edgeGraph_adj]
      constructor
      · rintro ⟨hne, hmem | hmem⟩ <;> rcases List.mem_append.1 hmem with hold | hnew
        · exact Or.inl ⟨hne, Or.inl hold⟩
        · exact Or.inr ((hpairiff x y).1 (Or.inl (List.mem_singleton.1 hnew)))
        · exact Or.inl ⟨hne, Or.inr hold⟩
        · exact Or.inr ((hpairiff x y).1 (Or.inr (List.mem_singleton.1 hnew)))
      · rintro (⟨hne, hmem⟩ | hpq | hpq)
        · exact ⟨hne, hmem.imp (fun h => List.mem_append_left _ h)
            (fun h => List.mem_append_left _ h)⟩
        · obtain ⟨rfl, rfl⟩ := hpq
          refine ⟨hFne, ?_⟩
          rcases (hpairiff _ _).2 (Or.inl ⟨rfl, rfl⟩) with hEq | hEq
          · exact Or.inl (List.mem_append_right _ (List.mem_singleton.2 hEq))
          · exact Or.inr (List.mem_append_right _ (List.mem_singleton.2 hEq))
        · obtain ⟨rfl, rfl⟩ := hpq
          refine ⟨hFne.symm, ?_⟩
          rcases (hpairiff _ _).2 (Or.inr ⟨rfl, rfl⟩) with hEq | hEq
          · exact Or.inl (List.mem_append_right _ (List.mem_singleton.2 hEq))
          · exact Or.inr (List.mem_append_right _ (List.mem_singleton.2 hEq))
    have inv2 : PrimInv n st2 (es ++ [enew]) := by
      refine ⟨inv.hn, ?_, ?_, ?_, ?_, ?_, ?_, ?_, ?_, ?_, ?_⟩
      · rw [hv2, List.length_set, inv.hvlen]
      · rw [hst2, (relax_lengths w n b st1).1, hst1, inv.hdlen]
      · rw [hst2, (relax_lengths w n b st1).2, hst1, inv.hplen]
      · rw [hv2]
        exact getD_set_true_mono _ _ _ inv.hzero
      · intro j hj hjf2
        obtain ⟨hjb, hjf⟩ := hunvis j hjf2
        rcases relax_distances_cases w n b st1 j with h | ⟨v, h⟩
        · rw [← hst2] at h
          rw [h]
          exact inv.hfin j hj hjf
        · rw [← hst2] at h
          rw [h]
          exact WithTop.coe_ne_top
      · intro j hj hjf2
        obtain ⟨hjb, hjf⟩ := hunvis j hjf2
        rcases relax_parent_cases w n b st1 j with h | h
        · rw [← hst2] at h
          rw [h]
          obtain ⟨a1, a2, a3⟩ := inv.hpar j hj hjf
          refine ⟨a1, a2, ?_⟩
          rw [hv2]
          exact getD_set_true_mono _ _ _ a3
        · rw [← hst2] at h
          rw [h]
          refine ⟨Int.natCast_nonneg b, ?_, ?_⟩
          · rw [Int.toNat_natCast]
            exact hfb.2.1
          · rw [Int.toNat_natCast]
            exact hvb2
      · rw [hv2, count_true_set st.visited b hbltv hfb.2.2, inv.hcount]
        simp
      · intro e he
        rcases List.mem_append.1 he with hold | hnew
        · obtain ⟨b1, b2, b3, b4⟩ := inv.hbound e hold
          refine ⟨b1, b2, ?_, ?_⟩
          · rw [hv2]
            exact getD_set_true_mono _ _ _ b3
          · rw [hv2]
            exact getD_set_true_mono _ _ _ b4
        · rw [List.mem_singleton.1 hnew, henew]
          have hvp2 : st2.visited.getD p false = true := by
            rw [hv2]
            exact getD_set_true_mono _ _ _ hpv
          refine ⟨min_lt_max.2 hbp, ?_, ?_, ?_⟩
          · exact Nat.max_lt.2 ⟨hfb.2.1, hpn⟩
          · rcases min_choice b p with hmin | hmin <;> rw [hmin]
            · exact hvb2
            · exact hvp2
          · rcases max_choice b p with hmax | hmax <;> rw [hmax]
            · exact hvb2
            · exact hvp2
      · exact isAcyclic_pendant (edgeGraph n es) (edgeGraph n (es ++ [enew]))
          ⟨b, hfb.2.1⟩ ⟨p, hpn⟩ hFne
          (by
            intro x hadjx
            rw [edgeGraph_adj] at hadjx
            obtain ⟨hne, hmem | hmem⟩ := hadjx
            · have := (inv.hbound _ hmem).2.2.1
              rw [hfb.2.2] at this
              exact Bool.false_ne_true this
            · have := (inv.hbound _ hmem).2.2.2
              rw [hfb.2.2] at this
              exact Bool.false_ne_true this)
          inv.hacyc hadjiff
      · intro j hj hjv2
        by_cases hjb : j = b
        · subst hjb
          have hreachp := (inv.hreach p hpn hpv).mono hmono
          have hadjpb : (edgeGraph n (es ++ [enew])).Adj ⟨p, hpn⟩ ⟨b, hj⟩ := by
            rw [hadjiff]
            exact Or.inr (Or.inr ⟨rfl, rfl⟩)
          exact hreachp.trans hadjpb.reachable
        · rw [hv2] at hjv2
          rw [getD_set_ne _ _ _ (fun h => hjb h.symm)] at hjv2
          exact (inv.hreach j hj hjv2).mono hmono
    have harith2 : (es ++ [enew]).length + 1 + k = n := by
      rw [List.length_append, List.length_singleton]
      omega
    exact ih st2 (es ++ [enew]) inv2 harith2

theorem primInit_inv {α : Type} [LinearOrder α] (w : Nat → Nat → α) (n : Nat)
    (hn : 2 ≤ n) : PrimInv n (primInit w n) [] := by
  have h0n : 0 < n := by omega
  have hrepl : 0 < (List.replicate n false).length := by simpa using h0n
  refine ⟨h0n, ?_, ?_, ?_, ?_, ?_, ?_, ?_, ?_, ?_, ?_⟩
  · simp [primInit]
  · simp [primInit]
  · simp [primInit]
  · exact getD_set_self _ _ _ _ hrepl
  · intro j hj hjf
    have hj0 : j ≠ 0 := by
      intro h
      subst h
      rw [show (primInit w n).visited = (List.replicate n false).set 0 true
        from rfl] at hjf
      rw [getD_set_self _ _ _ _ hrepl] at hjf
      exact Bool.false_ne_true hjf.symm
    show ((List.range n).map fun i =>
      if i = 0 then (⊤ : WithTop α) else ((w 0 i : α) : WithTop α)).getD j ⊤ ≠ ⊤
    rw [getD_map_range _ _ hj, if_neg hj0]
    exact WithTop.coe_ne_top
  · intro j hj hjf
    have hj0 : j ≠ 0 := by
      intro h
      subst h
      rw [show (primInit w n).visited = (List.replicate n false).set 0 true
        from rfl] at hjf
      rw [getD_set_self _ _ _ _ hrepl] at hjf
      exact Bool.false_ne_true hjf.symm
    show 0 ≤ ((List.range n).map fun i =>
        if i = 0 then (-1 : Int) else 0).getD j (-1) ∧
      (((List.range n).map fun i =>
        if i = 0 then (-1 : Int) else 0).getD j (-1)).toNat < n ∧
      ((List.replicate n false).set 0 true).getD
        (((List.range n).map fun i =>
          if i = 0 then (-1 : Int) else 0).getD j (-1)).toNat false = true
    rw [getD_map_range _ _ hj, if_neg hj0]
    refine ⟨le_refl 0, by simpa using h0n, ?_⟩
    exact getD_set_self _ _ _ _ hrepl
  · show ((List.replicate n false).set 0 true).count true = 1
    obtain ⟨m, rfl⟩ : ∃ m, n = m + 1 := ⟨n - 1, by omega⟩
    rw [List.replicate_succ]
    show (true :: List.replicate m false).count true = 1
    simp [List.count_cons, List.count_replicate]
  · intro e he
    exact absurd he (List.not_mem_nil e)
  · have hbot : edgeGraph n [] = ⊥ := by
      ext x y
      rw [edgeGraph_adj]
      simp
    rw [hbot]
    exact SimpleGraph.isAcyclic_bot
  · intro j hj hjv
    have hj0 : j = 0 := by
      by_contra h
      rw [show (primInit w n).visited = (List.replicate n false).set 0 true
        from rfl] at hjv
      rw [getD_set_ne _ _ _ (fun he => h he.symm), getD_replicate_false] at hjv
      exact Bool.false_ne_true hjv
    subst hj0
    exact SimpleGraph.Reachable.refl _

theorem primEdges_spec {α : Type} [LinearOrder α] (w : Nat → Nat → α) (n : Nat) :
    (2 ≤ n →
      (primEdges w n).length = n - 1 ∧
      (edgeGraph n (primEdges w n)).Connected ∧
      (edgeGraph n (primEdges w n)).IsAcyclic) ∧
    (n < 2 → primEdges w n = []) := by
  constructor
  · intro hn
    have hrun : primEdges w n = primLoop w n (n - 1) (primInit w n) [] := by
      unfold primEdges
      rw [if_neg (by omega)]
    obtain ⟨hlen, hacyc, hreach⟩ := primLoop_spec w n (n - 1) (primInit w n) []
      (primInit_inv w n hn) (by simp; omega)
    rw [hrun]
    haveI : Nonempty (Fin n) := ⟨⟨0, by omega⟩⟩
    exact ⟨hlen, ⟨fun u v => hreach u v⟩, hacyc⟩
  · intro hn
    unfold primEdges
    rw [if_pos hn]

/-- C1: for every point sequence with at least two points (coordinates are
exact rationals, hence finite), computeMinimumSpanningTreeEdges returns
exactly n - 1 edges whose induced graph on the n point indices is connected
and acyclic — a spanning tree; for fewer than two points it returns the
empty list. -/
theorem computeMinimumSpanningTreeEdges_spanning_tree (points : List Point) :
    (2 ≤ points.length →
      (computeMinimumSpanningTreeEdges points).length = points.length - 1 ∧
      (edgeGraph points.length
        (computeMinimumSpanningTreeEdges points)).Connected ∧
      (edgeGraph points.length
        (computeMinimumSpanningTreeEdges points)).IsAcyclic) ∧
    (points.length < 2 → computeMinimumSpanningTreeEdges points = []) := by
  unfold computeMinimumSpanningTreeEdges
  exact primEdges_spec _ _

/-- C1 witness: the spanning-tree theorem applied to a concrete two-point
sequence. -/
theorem computeMinimumSpanningTreeEdges_spanning_tree_witness :
    (computeMinimumSpanningTreeEdges [⟨0, 0, 0⟩, ⟨1, 1, 0⟩]).length = 1 ∧
    (edgeGraph 2 (computeMinimumSpanningTreeEdges [⟨0, 0, 0⟩, ⟨1, 1, 0⟩])).Connected ∧
    (edgeGraph 2 (computeMinimumSpanningTreeEdges [⟨0, 0, 0⟩, ⟨1, 1, 0⟩])).IsAcyclic :=
  (computeMinimumSpanningTreeEdges_spanning_tree
    [⟨0, 0, 0⟩, ⟨1, 1, 0⟩]).1 (by norm_num)

/-! ### Weight simulation: the algorithm only compares weights, so any
strictly monotone weight transformation leaves the edge output unchanged. -/

theorem withTopMap_lt_iff {α β : Type} [LinearOrder α] [LinearOrder β]
    {f : α → β} (hf : StrictMono f) (x y : WithTop α) :
    WithTop.map f x < WithTop.map f y ↔ x < y := by
  induction x using WithTop.recTopCoe with
  | top =>
    induction y using WithTop.recTopCoe with
    | top => simp
    | coe b => simp [WithTop.map_top, WithTop.map_coe, not_top_lt]
  | coe a =>
    induction y using WithTop.recTopCoe with
    | top => simp [WithTop.map_top, WithTop.map_coe, WithTop.coe_lt_top]
    | coe b => simp [WithTop.map_coe, WithTop.coe_lt_coe, hf.lt_iff_lt]

theorem getD_map_withTop {α β : Type} (f : α → β) (l : List (WithTop α))
    (j : Nat) :
    (l.map (WithTop.map f)).getD j ⊤ = WithTop.map f (l.getD j ⊤) := by
  rw [List.getD_eq_getD_get?, List.getD_eq_getD_get?, List.get?_map]
  cases l.get? j with
  | none => simp [WithTop.map_top]
  | some v => simp

theorem map_set_comm {α β : Type} (g : α → β) (l : List α) (j : Nat) (a : α) :
    (l.map g).set j (g a) = (l.set j a).map g := by
  induction l generalizing j with
  | nil => rfl
  | cons x t ih =>
    cases j with
    | zero => rfl
    | succ j => simp only [List.map_cons, List.set_cons_succ, ih]

/-- Apply a weight transformation to the distances of a Prim state. -/
def primMapState {α β : Type} (f : α → β) (st : PrimState α) : PrimState β :=
  ⟨st.visited, st.distances.map (WithTop.map f), st.parent⟩

theorem findBest_map {α β : Type} [LinearOrder α] [LinearOrder β] {f : α → β}
    (hf : StrictMono f) (visited : List Bool) (distances : List (WithTop α))
    (count : Nat) :
    findBest visited (distances.map (WithTop.map f)) count =
      ((findBest visited distances count).1,
        WithTop.map f (findBest visited distances count).2) := by
  unfold findBest
  generalize List.range count = l
  suffices h : ∀ (acc : Int × WithTop α),
      l.foldl
        (fun acc j =>
          if visited.getD j false then acc
          else if (distances.map (WithTop.map f)).getD j ⊤ < acc.2 then
            ((j : Int), (distances.map (WithTop.map f)).getD j ⊤)
          else acc)
        (acc.1, WithTop.map f acc.2) =
      ((l.foldl
          (fun acc j =>
            if visited.getD j false then acc
            else if distances.getD j ⊤ < acc.2 then ((j : Int), distances.getD j ⊤)
            else acc)
          acc).1,
        WithTop.map f
          (l.foldl
            (fun acc j =>
              if visited.getD j false then acc
              else if distances.getD j ⊤ < acc.2 then ((j : Int), distances.getD j ⊤)
              else acc)
            acc).2) by
    have := h (-1, ⊤)
    rw [show WithTop.map f (⊤ : WithTop α) = (⊤ : WithTop β) from rfl] at this
    exact this
  intro acc
  induction l generalizing acc with
  | nil => rfl
  | cons x t ih =>
    rw [List.foldl_cons, List.foldl_cons]
    by_cases hv : visited.getD x false
    · rw [if_pos hv, if_pos hv]
      exact ih acc
    · rw [if_neg hv, if_neg hv, getD_map_withTop]
      by_cases hlt : distances.getD x ⊤ < acc.2
      · rw [if_pos ((withTopMap_lt_iff hf _ _).2 hlt), if_pos hlt]
        exact ih ((x : Int), distances.getD x ⊤)
      · rw [if_neg (fun h => hlt ((withTopMap_lt_iff hf _ _).1 h)), if_neg hlt]
        exact ih acc

theorem relaxOnce_map {α β : Type} [LinearOrder α] [LinearOrder β] {f : α → β}
    (hf : StrictMono f) (w : Nat → Nat → α) (b : Nat) (st : PrimState α)
    (j : Nat) :
    relaxOnce (fun i j' => f (w i j')) b (primMapState f st) j =
      primMapState f (relaxOnce w b st j) := by
  unfold relaxOnce primMapState
  by_cases hv : st.visited.getD j false
  · rw [if_pos hv, if_pos hv]
  · rw [if_neg hv, if_neg hv]
    have hcond : (((f (w b j) : β)) : WithTop β) <
        (st.distances.map (WithTop.map f)).getD j ⊤ ↔
        ((w b j : α) : WithTop α) < st.distances.getD j ⊤ := by
      rw [getD_map_withTop,
        show (((f (w b j) : β)) : WithTop β) =
          WithTop.map f ((w b j : α) : WithTop α) from rfl]
      exact withTopMap_lt_iff hf _ _
    have hds : (st.distances.map (WithTop.map f)).set j
        (((f (w b j) : β)) : WithTop β) =
        (st.distances.set j ((w b j : α) : WithTop α)).map (WithTop.map f) :=
      map_set_comm (WithTop.map f) st.distances j ((w b j : α) : WithTop α)
    by_cases hlt : ((w b j : α) : WithTop α) < st.distances.getD j ⊤
    · rw [if_pos (hcond.2 hlt), if_pos hlt, hds]
    · rw [if_neg (fun h => hlt (hcond.1 h)), if_neg hlt]

theorem relax_map {α β : Type} [LinearOrder α] [LinearOrder β] {f : α → β}
    (hf : StrictMono f) (w : Nat → Nat → α) (count b : Nat)
    (st : PrimState α) :
    relax (fun i j' => f (w i j')) count b (primMapState f st) =
      primMapState f (relax w count b st) := by
  unfold relax
  generalize List.range count = l
  induction l generalizing st with
  | nil => rfl
  | cons x t ih =>
    rw [List.foldl_cons, List.foldl_cons, relaxOnce_map hf]
    exact ih (relaxOnce w b st x)

theorem primLoop_map {α β : Type} [LinearOrder α] [LinearOrder β] {f : α → β}
    (hf : StrictMono f) (w : Nat → Nat → α) (count : Nat) :
    ∀ (k : Nat) (st : PrimState α) (edges : List (Nat × Nat)),
      primLoop (fun i j => f (w i j)) count k (primMapState f st) edges =
        primLoop w count k st edges := by
  intro k
  induction k with
  | zero => intro st edges; rfl
  | succ k ih =>
    intro st edges
    have hfb := findBest_map hf st.visited st.distances count
    simp only [primLoop, primMapState]
    rw [hfb]
    dsimp only
    by_cases hneg : (findBest st.visited st.distances count).1 < 0
    · rw [if_pos hneg, if_pos hneg]
    · rw [if_neg hneg, if_neg hneg]
      have hrel := relax_map hf w count
        (findBest st.visited st.distances count).1.toNat
        { st with visited :=
            st.visited.set (findBest st.visited st.distances count).1.toNat true }
      simp only [primMapState] at hrel
      rw [hrel]
      exact ih _ _

theorem primInit_map {α β : Type} (f : α → β) (w : Nat → Nat → α)
    (count : Nat) :
    primInit (fun i j => f (w i j)) count = primMapState f (primInit w count) := by
  unfold primInit primMapState
  simp only [List.map_map]
  congr 1
  apply List.map_congr_left
  intro i _
  by_cases h : i = 0
  · simp [h, WithTop.map_top]
  · simp [h, WithTop.map_coe]

theorem primEdges_map {α β : Type} [LinearOrder α] [LinearOrder β] {f : α → β}
    (hf : StrictMono f) (w : Nat → Nat → α) (count : Nat) :
    primEdges (fun i j => f (w i j)) count = primEdges w count := by
  unfold primEdges
  by_cases h : count < 2
  · rw [if_pos h, if_pos h]
  · rw [if_neg h, if_neg h, primInit_map, primLoop_map hf]

/-- The square root extended to a strictly monotone map on all of the
rationals (negative inputs, which never occur for squared distances, are
mapped to themselves below zero). -/
noncomputable def sqrtExtended (q : ℚ) : ℝ :=
  if q < 0 then (q : ℝ) else Real.sqrt (q : ℝ)

theorem sqrtExtended_strictMono : StrictMono sqrtExtended := by
  intro a b hab
  unfold sqrtExtended
  by_cases ha : a < 0
  · rw [if_pos ha]
    by_cases hb : b < 0
    · rw [if_pos hb]
      exact_mod_cast hab
    · rw [if_neg hb]
      calc ((a : ℚ) : ℝ) < 0 := by exact_mod_cast ha
        _ ≤ Real.sqrt (b : ℝ) := Real.sqrt_nonneg _
  · have hb : ¬ b < 0 := fun h => ha (hab.trans h)
    rw [if_neg ha, if_neg hb]
    push_neg at ha
    exact Real.sqrt_lt_sqrt (by exact_mod_cast ha) (by exact_mod_cast hab)

/-- The real-distance MST run and the computable squared-distance run agree
on every point sequence. -/
theorem computeMinimumSpanningTreeEdges_eq_ratQ (points : List Point) :
    computeMinimumSpanningTreeEdges points =
      computeMinimumSpanningTreeEdgesQ points := by
  unfold computeMinimumSpanningTreeEdges computeMinimumSpanningTreeEdgesQ
  have hw : (fun i j => distance (points.getD i default) (points.getD j default)) =
      fun i j => sqrtExtended
        (distanceSquared (points.getD i default) (points.getD j default)) := by
    funext i j
    rw [distance_eq_sqrt_distanceSquared]
    unfold sqrtExtended
    rw [if_neg (not_lt.2 (distanceSquared_nonneg _ _))]
  rw [hw]
  exact primEdges_map sqrtExtended_strictMono _ _

/-- One unfolding step of the Prim loop when the scan found a vertex. -/
theorem primLoop_step {α : Type} [LinearOrder α] (w : Nat → Nat → α)
    (count k : Nat) (st : PrimState α) (es : List (Nat × Nat)) (hk : k ≠ 0)
    (hbi : 0 ≤ (findBest st.visited st.distances count).1) :
    primLoop w count k st es =
      primLoop w count (k - 1)
        (relax w count (findBest st.visited st.distances count).1.toNat
          (PrimState.mk
            (st.visited.set (findBest st.visited st.distances count).1.toNat true)
            st.distances st.parent))
        (if 0 ≤ st.parent.getD
            (findBest st.visited st.distances count).1.toNat (-1) then
          es ++ [(min (findBest st.visited st.distances count).1.toNat
              (st.parent.getD
                (findBest st.visited st.distances count).1.toNat (-1)).toNat,
            max (findBest st.visited st.distances count).1.toNat
              (st.parent.getD
                (findBest st.visited st.distances count).1.toNat (-1)).toNat)]
        else es) := by
  obtain ⟨m, rfl⟩ : ∃ m, k = m + 1 := ⟨k - 1, by omega⟩
  simp only [primLoop]
  rw [if_neg (not_lt.2 hbi), Nat.add_sub_cancel]

/-- The fixed 5-point configuration of C9: the four corners of the unit
square in index order, then its center. -/
def pointsC9 : List Point :=
  [⟨0, 0, 0⟩, ⟨1, 1, 0⟩, ⟨2, 1, 1⟩, ⟨3, 0, 1⟩, ⟨4, 1 / 2, 1 / 2⟩]

set_option maxHeartbeats 1600000 in
theorem mstQ_pointsC9 : computeMinimumSpanningTreeEdgesQ pointsC9 =
    [(0, 4), (1, 4), (2, 4), (3, 4)] := by
  have w01 : distanceSquared (pointsC9[0]?.getD default) (pointsC9[1]?.getD default)
      = 1 := by norm_num [pointsC9, distanceSquared]
  have w02 : distanceSquared (pointsC9[0]?.getD default) (pointsC9[2]?.getD default)
      = 2 := by norm_num [pointsC9, distanceSquared]
  have w03 : distanceSquared (pointsC9[0]?.getD default) (pointsC9[3]?.getD default)
      = 1 := by norm_num [pointsC9, distanceSquared]
  have w04 : distanceSquared (pointsC9[0]?.getD default) (pointsC9[4]?.getD default)
      = 1 / 2 := by norm_num [pointsC9, distanceSquared]
  have w41 : distanceSquared (pointsC9[4]?.getD default) (pointsC9[1]?.getD default)
      = 1 / 2 := by norm_num [pointsC9, distanceSquared]
  have w42 : distanceSquared (pointsC9[4]?.getD default) (pointsC9[2]?.getD default)
      = 1 / 2 := by norm_num [pointsC9, distanceSquared]
  have w43 : distanceSquared (pointsC9[4]?.getD default) (pointsC9[3]?.getD default)
      = 1 / 2 := by norm_num [pointsC9, distanceSquared]
  have w12 : distanceSquared (pointsC9[1]?.getD default) (pointsC9[2]?.getD default)
      = 1 := by norm_num [pointsC9, distanceSquared]
  have w13 : distanceSquared (pointsC9[1]?.getD default) (pointsC9[3]?.getD default)
      = 2 := by norm_num [pointsC9, distanceSquared]
  have w23 : distanceSquared (pointsC9[2]?.getD default) (pointsC9[3]?.getD default)
      = 1 := by norm_num [pointsC9, distanceSquared]
  have t0 : Int.toNat 0 = 0 := rfl
  have t1 : Int.toNat 1 = 1 := rfl
  have t2 : Int.toNat 2 = 2 := rfl
  have t3 : Int.toNat 3 = 3 := rfl
  have t4 : Int.toNat 4 = 4 := rfl
  have hlen : pointsC9.length = 5 := rfl
  unfold computeMinimumSpanningTreeEdgesQ primEdges
  rw [hlen]
  rw [if_neg (by norm_num)]
  norm_num [primInit, List.range_succ, List.replicate, w01, w02, w03, w04,
    -WithTop.coe_ofNat, -WithTop.coe_one]
  rw [primLoop_step _ _ _ _ _ (by norm_num) (by norm_num [findBest,
    List.range_succ, t0, t1, t2, t3, t4,
    w01, w02, w03, w04, w41, w42, w43, w12, w13, w23,
    WithTop.coe_lt_top, WithTop.coe_lt_coe,
    -WithTop.coe_ofNat, -WithTop.coe_one])]
  norm_num [findBest, relax, relaxOnce, List.range_succ, t0, t1, t2, t3, t4,
    w01, w02, w03, w04, w41, w42, w43, w12, w13, w23,
    WithTop.coe_lt_top, WithTop.coe_lt_coe,
    -WithTop.coe_ofNat, -WithTop.coe_one]
  rw [primLoop_step _ _ _ _ _ (by norm_num) (by norm_num [findBest,
    List.range_succ, t0, t1, t2, t3, t4,
    w01, w02, w03, w04, w41, w42, w43, w12, w13, w23,
    WithTop.coe_lt_top, WithTop.coe_lt_coe,
    -WithTop.coe_ofNat, -WithTop.coe_one])]
  norm_num [findBest, relax, relaxOnce, List.range_succ, t0, t1, t2, t3, t4,
    w01, w02, w03, w04, w41, w42, w43, w12, w13, w23,
    WithTop.coe_lt_top, WithTop.coe_lt_coe,
    -WithTop.coe_ofNat, -WithTop.coe_one]
  rw [primLoop_step _ _ _ _ _ (by norm_num) (by norm_num [findBest,
    List.range_succ, t0, t1, t2, t3, t4,
    w01, w02, w03, w04, w41, w42, w43, w12, w13, w23,
    WithTop.coe_lt_top, WithTop.coe_lt_coe,
    -WithTop.coe_ofNat, -WithTop.coe_one])]
  norm_num [findBest, relax, relaxOnce, List.range_succ, t0, t1, t2, t3, t4,
    w01, w02, w03, w04, w41, w42, w43, w12, w13, w23,
    WithTop.coe_lt_top, WithTop.coe_lt_coe,
    -WithTop.coe_ofNat, -WithTop.coe_one]
  rw [primLoop_step _ _ _ _ _ (by norm_num) (by norm_num [findBest,
    List.range_succ, t0, t1, t2, t3, t4,
    w01, w02, w03, w04, w41, w42, w43, w12, w13, w23,
    WithTop.coe_lt_top, WithTop.coe_lt_coe,
    -WithTop.coe_ofNat, -WithTop.coe_one])]
  norm_num [findBest, relax, relaxOnce, List.range_succ, t0, t1, t2, t3, t4,
    WithTop.coe_lt_top, WithTop.coe_lt_coe,
    -WithTop.coe_ofNat, -WithTop.coe_one, primLoop]

/-- Total Euclidean length of the MST edge list, as drawn by the app:
the sum of `distance` over the edges returned by
`computeMinimumSpanningTreeEdges`. -/
noncomputable def mstTotalLength (points : List Point) : ℝ :=
  ((computeMinimumSpanningTreeEdges points).map fun e =>
    distance (points.getD e.1 default) (points.getD e.2 default)).sum

theorem sqrt_half_eq : Real.sqrt (1 / 2) = Real.sqrt 2 / 2 := by
  rw [show (1 / 2 : ℝ) = (Real.sqrt 2 / 2) ^ 2 by
    rw [div_pow, Real.sq_sqrt (by norm_num : (0:ℝ) ≤ 2)]
    norm_num]
  exact Real.sqrt_sq (by positivity)

theorem mstEdges_pointsC9 : computeMinimumSpanningTreeEdges pointsC9 =
    [(0, 4), (1, 4), (2, 4), (3, 4)] := by
  rw [computeMinimumSpanningTreeEdges_eq_ratQ]
  exact mstQ_pointsC9

theorem distC9_corner (i : Nat) (hi : i < 4) :
    distance (pointsC9.getD i default) (pointsC9.getD 4 default) =
      Real.sqrt 2 / 2 := by
  rw [distance_eq_sqrt_distanceSquared]
  have hq : distanceSquared (pointsC9.getD i default) (pointsC9.getD 4 default)
      = 1 / 2 := by
    interval_cases i <;> norm_num [pointsC9, distanceSquared]
  rw [hq, show (((1 / 2 : ℚ) : ℝ)) = (1 / 2 : ℝ) by norm_num]
  exact sqrt_half_eq

theorem mstTotalLength_pointsC9_eq :
    mstTotalLength pointsC9 = 4 * (Real.sqrt 2 / 2) := by
  unfold mstTotalLength
  rw [mstEdges_pointsC9]
  simp only [List.map_cons, List.map_nil, List.sum_cons, List.sum_nil]
  rw [distC9_corner 0 (by norm_num), distC9_corner 1 (by norm_num),
    distC9_corner 2 (by norm_num), distC9_corner 3 (by norm_num)]
  ring

/-- C9 (counterexample): for the four corners of the unit square followed by
its center, the total Euclidean length of the minimum spanning tree computed
by the code is NOT `4 x 0.5`: each of the four center-corner edges has length
`sqrt 2 / 2`, which is about `0.707`, not `0.5`, so the spec total of `2` is
wrong. -/
theorem mst_unit_square_total_ne :
    mstTotalLength pointsC9 ≠ 4 * (1 / 2 : ℝ) := by
  rw [mstTotalLength_pointsC9_eq]
  have h1 : (1 : ℝ) < Real.sqrt 2 := by
    have h := Real.sqrt_lt_sqrt (by norm_num : (0:ℝ) ≤ 1) (by norm_num : (1:ℝ) < 2)
    rwa [Real.sqrt_one] at h
  intro h
  nlinarith

/-- C9 (amended): for the 5-point sequence consisting of the four corners of
the unit square and its center, `computeMinimumSpanningTreeEdges` returns
exactly the 4 edges joining the center (index 4) to each corner, and the
total Euclidean length is `4 x (sqrt 2 / 2) = 2 sqrt 2`, since each
center-corner distance is `sqrt 2 / 2` (the spec arithmetic `4 x 0.5`
contradicts its own parenthetical `each distance sqrt 2 / 2`). -/
theorem mst_unit_square_center_spec :
    computeMinimumSpanningTreeEdges pointsC9 = [(0, 4), (1, 4), (2, 4), (3, 4)] ∧
    mstTotalLength pointsC9 = 4 * (Real.sqrt 2 / 2) :=
  ⟨mstEdges_pointsC9, mstTotalLength_pointsC9_eq⟩

/-! ## Mode dispatch (types.ts GraphMode, geometry-algorithms.ts
computeDerivedStructures) -/

/-- GraphMode from types.ts: the union type declares exactly these SEVEN
string literals (there is no "voronoi-bruteforce" member). -/
inductive GraphMode where
  | voronoi
  | alphaShape
  | alphaComplex
  | nnCrust
  | gabriel
  | rng
  | mst
  deriving DecidableEq, Fintype

/-- The string literal of types.ts that each GraphMode member stands for. -/
def GraphMode.toModeString : GraphMode → String
  | .voronoi => "voronoi"
  | .alphaShape => "alpha-shape"
  | .alphaComplex => "alpha-complex"
  | .nnCrust => "nn-crust"
  | .gabriel => "gabriel"
  | .rng => "rng"
  | .mst => "mst"

/-- DerivedStructures from types.ts. -/
structure DerivedStructures where
  voronoiCells : List (List (ℚ × ℚ))
  graphEdges : List (Nat × Nat)
  alphaTriangles : List (Nat × Nat × Nat)

/-- The fields of the external d3-delaunay triangulation object that
computeDerivedStructures consumes: the flat triangle index array, the
halfedge array, and the Voronoi cell polygon lookup (with the source's
`?? []` fallback already applied). The library itself is outside the
repository, so it enters the model as data. -/
structure DelaunayTriangulation where
  triangles : List Nat
  halfedges : List Int
  cellPolygon : Nat → List (ℚ × ℚ)

/-- nextHalfedge from geometry-algorithms.ts. -/
def nextHalfedge (index : Nat) : Nat :=
  if index % 3 = 2 then index - 2 else index + 1

/-- collectDelaunayEdges from geometry-algorithms.ts: walk the halfedge
array, skip interior duplicates (opposite in range and smaller), skip
degenerate or out-of-range triangle reads (undefined in the source), and
deduplicate through the seen set of canonical keys. -/
def collectDelaunayEdges (triangles : List Nat) (halfedges : List Int) :
    List (Nat × Nat) :=
  ((List.range halfedges.length).foldl
    (fun (acc : List (Nat × Nat) × List (Nat × Nat)) edgeIndex =>
      let opposite := halfedges.getD edgeIndex (-1)
      if 0 ≤ opposite ∧ opposite < (edgeIndex : Int) then acc
      else
        match triangles.get? edgeIndex, triangles.get? (nextHalfedge edgeIndex) with
        | some p, some q =>
          if p = q then acc
          else
            if edgeKey p q ∈ acc.1 then acc
            else (acc.1 ++ [edgeKey p q], acc.2 ++ [(min p q, max p q)])
        | _, _ => acc)
    ([], [])).2

/-- The inner scan of computeVoronoiBruteForce: the index of the first seed
at minimal squared distance from the pixel (closestDistance starts at
Number.MAX_VALUE, modelled as the top element). -/
def closestSeed (points : List Point) (x y : Nat) : Nat :=
  ((List.range points.length).foldl
    (fun (acc : Nat × WithTop ℚ) i =>
      let p := points.getD i default
      let dx := (x : ℚ) - p.x
      let dy := (y : ℚ) - p.y
      if ((dx * dx + dy * dy : ℚ) : WithTop ℚ) < acc.2 then
        (i, ((dx * dx + dy * dy : ℚ) : WithTop ℚ))
      else acc)
    (0, ⊤)).1

/-- computeVoronoiBruteForce from geometry-algorithms.ts: every pixel of the
width-by-height canvas is appended to the cell of its closest seed. -/
def computeVoronoiBruteForce (points : List Point) (width height : Nat) :
    List (List (ℚ × ℚ)) :=
  (List.range height).foldl
    (fun cells y =>
      (List.range width).foldl
        (fun (cells : List (List (ℚ × ℚ))) x =>
          let ci := closestSeed points x y
          cells.set ci (cells.getD ci [] ++ [((x : ℚ), (y : ℚ))]))
        cells)
    (points.map fun _ => [])

/-- computeDerivedStructures from geometry-algorithms.ts, with the runtime
string comparisons of the source kept as string comparisons (the dispatch
tests `mode === "voronoi-bruteforce"` even though the GraphMode type it
receives declares no such member). -/
noncomputable def computeDerivedStructures (points : List Point)
    (width height : Nat) (alpha : ℝ) (del : DelaunayTriangulation)
    (mode : String) : DerivedStructures :=
  if points.length = 0 then ⟨[], [], []⟩
  else if mode = "voronoi-bruteforce" then
    ⟨computeVoronoiBruteForce points width height, [], []⟩
  else
    let voronoiCells := (List.range points.length).map fun i =>
      polygonWithoutDuplicate (del.cellPolygon i)
    if mode = "voronoi" then ⟨voronoiCells, [], []⟩
    else
      let candidateEdges := collectDelaunayEdges del.triangles del.halfedges
      if mode = "alpha-shape" ∨ mode = "alpha-complex" then
        let alphaData := computeAlphaData points del.triangles alpha
        ⟨voronoiCells,
          if mode = "alpha-shape" then alphaData.boundaryEdges
          else alphaData.allEdges,
          if mode = "alpha-complex" then alphaData.triangles else []⟩
      else if mode = "nn-crust" then
        ⟨voronoiCells, computeNearestNeighborEdges points, []⟩
      else if mode = "gabriel" then
        ⟨voronoiCells, computeGabrielEdges points candidateEdges, []⟩
      else if mode = "rng" then
        ⟨voronoiCells, computeRelativeNeighborhoodEdges points candidateEdges, []⟩
      else ⟨voronoiCells, computeMinimumSpanningTreeEdges points, []⟩

/-- C6: the GraphMode enumeration of types.ts has exactly SEVEN members, not
the eight the spec lists: none of them is the string "voronoi-bruteforce",
yet the dispatch of computeDerivedStructures (and the canvas component)
compares the received GraphMode against that very string, a comparison
between types with no overlap that TypeScript rejects (TS2367). On the seven
declared modes the dispatch does fully determine graphEdges and
alphaTriangles as stated, and the unreachable "voronoi-bruteforce" branch
would populate voronoiCells from the brute-force pass. -/
theorem graphMode_dispatch_seven_modes :
    Fintype.card GraphMode = 7 ∧
    (∀ m : GraphMode, m.toModeString ≠ "voronoi-bruteforce") ∧
    ∀ (points : List Point) (width height : Nat) (alpha : ℝ)
      (del : DelaunayTriangulation), points.length ≠ 0 →
      (computeDerivedStructures points width height alpha del
          "voronoi-bruteforce" =
        ⟨computeVoronoiBruteForce points width height, [], []⟩) ∧
      ∀ m : GraphMode,
        (computeDerivedStructures points width height alpha del
            m.toModeString).graphEdges =
          (match m with
            | .voronoi => []
            | .alphaShape =>
                (computeAlphaData points del.triangles alpha).boundaryEdges
            | .alphaComplex =>
                (computeAlphaData points del.triangles alpha).allEdges
            | .nnCrust => computeNearestNeighborEdges points
            | .gabriel => computeGabrielEdges points
                (collectDelaunayEdges del.triangles del.halfedges)
            | .rng => computeRelativeNeighborhoodEdges points
                (collectDelaunayEdges del.triangles del.halfedges)
            | .mst => computeMinimumSpanningTreeEdges points) ∧
        (computeDerivedStructures points width height alpha del
            m.toModeString).alphaTriangles =
          (match m with
            | .alphaComplex => (computeAlphaData points del.triangles alpha).triangles
            | _ => []) := by
  refine ⟨by decide, by decide, ?_⟩
  intro points width height alpha del h
  constructor
  · simp [computeDerivedStructures, h]
  · intro m
    cases m <;> simp [computeDerivedStructures, GraphMode.toModeString, h]

theorem graphMode_dispatch_seven_modes_witness :
    ([(⟨0, 0, 0⟩ : Point)].length ≠ 0) ∧
    (computeDerivedStructures [⟨0, 0, 0⟩] 0 0 0 ⟨[], [], fun x => []⟩
        "voronoi-bruteforce" =
      ⟨computeVoronoiBruteForce [⟨0, 0, 0⟩] 0 0, [], []⟩) :=
  ⟨by norm_num,
    (graphMode_dispatch_seven_modes.2.2 [⟨0, 0, 0⟩] 0 0 0 ⟨[], [], fun x => []⟩
      (by norm_num)).1⟩

end VoronoiSpec
